import Mathlib

/-!
Verification development for the EL-ontology classifier in this repository.

The repository contains two implementations of the same saturation engine:
a C++ one (cpp-impl/main.cpp) and a C one (c-impl/main.c).  Both are
shallowly embedded below, in namespaces Cpp and CImpl respectively.
Machine integers (uint32_t indices, size_t counts) are modelled as Nat:
none of the embedded computations can overflow 32 bits on the inputs the
theorems use, and the C/C++ sources never rely on wrap-around.
Hash containers (std::unordered_set, std::unordered_map) are modelled as
lists with insertion-order iteration; the C++ standard leaves their
iteration order unspecified, so the embedding fixes the canonical
insertion order.  The worklists are LIFO stacks in both sources (vector
push_back/pop_back in C++, an index-decremented array in C); they are
modelled as lists with cons as push and head as pop, which preserves the
exact processing order.
-/

/-- Reserved concept identifier for the universal concept (both sources). -/
def TOP : Nat := 0

/-- Reserved concept identifier for the unsatisfiable concept (both sources). -/
def BOTTOM : Nat := 1

namespace Cpp

/-- RoleFiller from cpp-impl/main.cpp: the pair (role, fill) of an
existential restriction. -/
structure RoleFiller where
  role : Nat
  fill : Nat
deriving DecidableEq

/-- The indexed store of asserted facts from cpp-impl/main.cpp
(class AxiomStore there): sub_to_sups, conj_index, exist_right and
exist_left, indexed densely by concept (resp. role) identifier.
Each unordered_map is modelled as an association list. -/
structure Store where
  subToSups : List (List Nat)
  conjIndex : List (List (Nat × List Nat))
  existRight : List (List RoleFiller)
  existLeft : List (List (Nat × List Nat))
deriving DecidableEq

/-- Per-concept context from cpp-impl/main.cpp (class Context):
the derived super-concepts and the per-role link and predecessor maps. -/
structure Context where
  id : Nat
  superSet : List Nat
  linkMap : List (List Nat)
  predMap : List (List Nat)
deriving DecidableEq

instance : Inhabited Context := ⟨⟨0, [], [], []⟩⟩

/-- WorkItem from cpp-impl/main.cpp: a pending super-concept derivation. -/
structure WorkItem where
  concept : Nat
  added : Nat
deriving DecidableEq

/-- LinkItem from cpp-impl/main.cpp: a pending role-link derivation. -/
structure LinkItem where
  source : Nat
  role : Nat
  target : Nat
deriving DecidableEq

/-- The full mutable state of cpp-impl saturate: the context vector, the
two worklists and the current drain phase of the nested while loops
(phase = true while the super worklist is being drained).  The hist and
lhist fields are write-only journals of every enqueue, used to state the
at-most-once enqueue property; they influence nothing. -/
structure SatState where
  contexts : List Context
  worklist : List WorkItem
  linkWorklist : List LinkItem
  phase : Bool
  hist : List WorkItem
  lhist : List LinkItem
deriving DecidableEq

/-- Read a context by identifier (contexts[c] in the source). -/
def getCtx (st : SatState) (c : Nat) : Context :=
  st.contexts.getD c default

/-- Context::hasSuper from cpp-impl/main.cpp. -/
def hasSuper (st : SatState) (c e : Nat) : Bool :=
  (getCtx st c).superSet.contains e

/-- Context::hasLink from cpp-impl/main.cpp. -/
def hasLink (st : SatState) (c r t : Nat) : Bool :=
  ((getCtx st c).linkMap.getD r []).contains t

/-- Replace context c by the image of f (a mutation of contexts[c]). -/
def updCtx (st : SatState) (c : Nat) (f : Context → Context) : SatState :=
  { st with contexts := st.contexts.set c (f (getCtx st c)) }

/-- The guarded-add-and-enqueue idiom of cpp-impl saturate: every rule
adds a super-concept only after a failed hasSuper test and then pushes
the trigger, so the three statements are bundled. -/
def addSuperPush (c e : Nat) (st : SatState) : SatState :=
  if hasSuper st c e then st
  else
    let st1 := updCtx st c (fun ctx => { ctx with superSet := ctx.superSet ++ [e] })
    { st1 with worklist := ⟨c, e⟩ :: st1.worklist, hist := ⟨c, e⟩ :: st1.hist }

/-- The addLink lambda of cpp-impl saturate followed by the guarded
link_worklist push of CR3: install the link in source.link_map[role] and
target.pred_map[role] and enqueue the link trigger, unless present. -/
def addLinkPush (c r t : Nat) (st : SatState) : SatState :=
  if hasLink st c r t then st
  else
    let st1 := updCtx st c (fun ctx =>
      { ctx with linkMap := ctx.linkMap.set r (ctx.linkMap.getD r [] ++ [t]) })
    let st2 := updCtx st1 t (fun ctx =>
      { ctx with predMap := ctx.predMap.set r (ctx.predMap.getD r [] ++ [c]) })
    { st2 with linkWorklist := ⟨c, r, t⟩ :: st2.linkWorklist,
               lhist := ⟨c, r, t⟩ :: st2.lhist }

/-- CR1 block of cpp-impl saturate: for each e in sub_to_sups[d], add e
to S(c).  The d-bounds guard of the source is subsumed by getD. -/
def cr1 (store : Store) (c d : Nat) (st : SatState) : SatState :=
  (store.subToSups.getD d []).foldl (fun s e => addSuperPush c e s) st

/-- CR2 block of cpp-impl saturate: for each entry (d2, results) of
conj_index[d] with d2 already in S(c), add every result to S(c). -/
def cr2 (store : Store) (c d : Nat) (st : SatState) : SatState :=
  (store.conjIndex.getD d []).foldl (fun s p =>
    if hasSuper s c p.fst then p.snd.foldl (fun s1 e => addSuperPush c e s1) s
    else s) st

/-- CR3 block of cpp-impl saturate: for each (role, fill) in
exist_right[d], install the link c -role-> fill. -/
def cr3 (store : Store) (c d : Nat) (st : SatState) : SatState :=
  (store.existRight.getD d []).foldl (fun s rf => addLinkPush c rf.role rf.fill s) st

/-- CR4 backward block of cpp-impl saturate: for every role r and every
predecessor pred of c under r, add every f in exist_left[r][d] to
S(pred).  The predecessor list of c is not modified by the body, so the
fold over its snapshot matches the source iteration. -/
def cr4b (store : Store) (numRoles : Nat) (c d : Nat) (st : SatState) : SatState :=
  (List.range numRoles).foldl (fun s r =>
    ((getCtx s c).predMap.getD r []).foldl (fun s1 pred =>
      match (store.existLeft.getD r []).lookup d with
      | some fs => fs.foldl (fun s2 f => addSuperPush pred f s2) s1
      | none => s1) s) st

/-- Processing of one dequeued WorkItem (c, d) in cpp-impl saturate:
CR1, CR2, CR3 and CR4-backward in source order. -/
def procSuper (store : Store) (numRoles : Nat) (it : WorkItem) (st : SatState) : SatState :=
  cr4b store numRoles it.concept it.added
    (cr3 store it.concept it.added
      (cr2 store it.concept it.added
        (cr1 store it.concept it.added st)))

/-- CR4 forward block of cpp-impl saturate: on link trigger (c, r, d),
for every e in the superset of d with an exist_left[r][e] entry, add its
conclusions to S(c).  The source iterates the unordered_set S(d); the
embedding iterates the snapshot of S(d) taken at loop entry. -/
def cr4f (store : Store) (c r d : Nat) (st : SatState) : SatState :=
  if (store.existLeft.getD r []).isEmpty then st
  else
    ((getCtx st d).superSet).foldl (fun s e =>
      match (store.existLeft.getD r []).lookup e with
      | some fs => fs.foldl (fun s1 f => addSuperPush c f s1) s
      | none => s) st

/-- CR5 block of cpp-impl saturate: on link trigger (c, r, d), if BOTTOM
is in S(d), add BOTTOM to S(c). -/
def cr5 (c d : Nat) (st : SatState) : SatState :=
  if hasSuper st d BOTTOM then addSuperPush c BOTTOM st else st

/-- Processing of one dequeued LinkItem in cpp-impl saturate:
CR4-forward then CR5. -/
def procLink (store : Store) (li : LinkItem) (st : SatState) : SatState :=
  cr5 li.source li.target (cr4f store li.source li.role li.target st)

/-- One transition of the nested drain loops of cpp-impl saturate: in the
super phase pop and process a WorkItem, switching to the link phase when
the super worklist is empty, and symmetrically in the link phase. -/
def step (store : Store) (numRoles : Nat) (st : SatState) : SatState :=
  if st.phase then
    match st.worklist with
    | it :: rest => procSuper store numRoles it { st with worklist := rest }
    | [] => { st with phase := false }
  else
    match st.linkWorklist with
    | li :: rest => procLink store li { st with linkWorklist := rest }
    | [] => { st with phase := true }

/-- The halting condition of the outer while loop: both worklists empty. -/
def finished (st : SatState) : Bool :=
  st.worklist.isEmpty && st.linkWorklist.isEmpty

/-- Fuelled execution of the cpp-impl saturation loop. -/
def run (store : Store) (numRoles : Nat) : Nat → SatState → SatState
  | 0, st => st
  | fuel + 1, st => if finished st then st else run store numRoles fuel (step store numRoles st)

/-- The context initialization of cpp-impl saturate: S(c) starts as the
insertion of c then TOP into an empty set, and both maps have one empty
entry per role. -/
def initCtx (numRoles : Nat) (c : Nat) : Context :=
  { id := c
    superSet := if c = TOP then [TOP] else [c, TOP]
    linkMap := List.replicate numRoles []
    predMap := List.replicate numRoles [] }

/-- The initial worklist of cpp-impl saturate: for c = 0 .. n-1 the items
(c, c) then (c, TOP) are pushed; the resulting stack pops (n-1, TOP)
first, exactly as vector pop_back does in the source. -/
def initItems (n : Nat) : List WorkItem :=
  (List.range n).foldl (fun acc c => (⟨c, TOP⟩ : WorkItem) :: ⟨c, c⟩ :: acc) []

/-- The state of cpp-impl saturate on entry to the main loop. -/
def initState (n numRoles : Nat) : SatState :=
  { contexts := (List.range n).map (initCtx numRoles)
    worklist := initItems n
    linkWorklist := []
    phase := true
    hist := initItems n
    lhist := [] }

/-- countInferred from cpp-impl/main.cpp: over concepts 2 .. n-1, sum
super_set.size() - 2 whenever super_set.size() > 2. -/
def countInferred (contexts : List Context) : Nat :=
  ((List.range contexts.length).drop 2).foldl (fun t c =>
    let sz := (contexts.getD c default).superSet.length
    if 2 < sz then t + (sz - 2) else t) 0

/-- Well-formedness of a store for the dimensions (n, numRoles): every
stored identifier is in range.  The sources index vectors with these
identifiers without checks, so out-of-range identifiers are undefined
behaviour there (spec section 7 calls them programmer errors). -/
def Valid (store : Store) (n numRoles : Nat) : Prop :=
  (∀ l ∈ store.subToSups, ∀ e ∈ l, e < n) ∧
  (∀ m ∈ store.conjIndex, ∀ p ∈ m, ∀ e ∈ p.snd, e < n) ∧
  (∀ l ∈ store.existRight, ∀ rf ∈ l, rf.role < numRoles ∧ rf.fill < n) ∧
  (∀ m ∈ store.existLeft, ∀ p ∈ m, ∀ e ∈ p.snd, e < n)

instance (store : Store) (n numRoles : Nat) : Decidable (Valid store n numRoles) := by
  unfold Valid; infer_instance

end Cpp

namespace CImpl

/-- INITIAL_CAP from c-impl/main.c: the fixed capacity of the parsed
subsumption and relationship axiom arrays. -/
def INITIAL_CAP : Nat := 250000

/-- WORKLIST_CAP from c-impl/main.c: the fixed capacity of the two
worklist arrays allocated by saturate. -/
def WORKLIST_CAP : Nat := 4000000

/-- ConceptList from c-impl/main.c: a growable array of identifiers.
The capacity field follows the realloc discipline of concept_list_push
(0 -> 8, then doubling); it is observable because link_exists reads the
capacity of link_map[0]. -/
structure CList where
  items : List Nat
  capacity : Nat
deriving DecidableEq

instance : Inhabited CList := ⟨⟨[], 0⟩⟩

/-- concept_list_push from c-impl/main.c: grow capacity when full, then
append. -/
def clPush (l : CList) (x : Nat) : CList :=
  let cap := if l.capacity ≤ l.items.length then
               (if l.capacity = 0 then 8 else l.capacity * 2)
             else l.capacity
  ⟨l.items ++ [x], cap⟩

/-- RoleFiller from c-impl/main.c. -/
structure RoleFiller where
  role : Nat
  fill : Nat
deriving DecidableEq

/-- AxiomStore from c-impl/main.c.  The conj_index and exist_left fields
exist in the struct but the saturation loop of this implementation never
reads them (its CR2 is absent and its CR4 loops have empty bodies). -/
structure Store where
  numConcepts : Nat
  numRoles : Nat
  subToSups : List (List Nat)
  conjIndex : List (List (Nat × List Nat))
  existRight : List (List RoleFiller)
  existLeft : List (List (Nat × List Nat))
deriving DecidableEq

/-- Context from c-impl/main.c: super_set is a deduplicated array
(capacity not observable), link_map and pred_map are per-role
ConceptLists whose capacities follow concept_list_push. -/
structure Context where
  superSet : List Nat
  linkMap : List CList
  predMap : List CList
deriving DecidableEq

instance : Inhabited Context := ⟨⟨[], [], []⟩⟩

/-- WorkItem from c-impl/main.c. -/
structure WorkItem where
  concept : Nat
  added : Nat
deriving DecidableEq

/-- LinkItem from c-impl/main.c. -/
structure LinkItem where
  source : Nat
  role : Nat
  target : Nat
deriving DecidableEq

/-- The mutable state of c-impl saturate, with enqueue journals as in
the Cpp namespace. -/
structure SatState where
  contexts : List Context
  worklist : List WorkItem
  linkWorklist : List LinkItem
  phase : Bool
  hist : List WorkItem
  lhist : List LinkItem
deriving DecidableEq

/-- contexts[c] access. -/
def getCtx (st : SatState) (c : Nat) : Context :=
  st.contexts.getD c default

/-- super_set_contains from c-impl/main.c: linear scan. -/
def superSetContains (ctx : Context) (e : Nat) : Bool :=
  ctx.superSet.contains e

/-- super_set_add from c-impl/main.c: append unless already present. -/
def superSetAdd (ctx : Context) (e : Nat) : Context :=
  if superSetContains ctx e then ctx
  else { ctx with superSet := ctx.superSet ++ [e] }

/-- link_exists from c-impl/main.c.  Faithful to the source: the first
test reads the CAPACITY OF link_map[0] (not the role count), so for a
role beyond that capacity the function answers false even when the link
is present in link_map[role]. -/
def linkExists (ctx : Context) (role target : Nat) : Bool :=
  if (ctx.linkMap.getD 0 default).capacity ≤ role then false
  else ((ctx.linkMap.getD role default).items).contains target

/-- Replace context c by the image of f (a mutation of contexts[c]). -/
def updCtx (st : SatState) (c : Nat) (f : Context → Context) : SatState :=
  { st with contexts := st.contexts.set c (f (getCtx st c)) }

/-- add_link from c-impl/main.c: unless link_exists, push target onto
source.link_map[role] and source onto target.pred_map[role]. -/
def addLink (st : SatState) (source target role : Nat) : SatState :=
  if linkExists (getCtx st source) role target then st
  else
    let st1 := updCtx st source (fun ctx =>
      { ctx with linkMap := ctx.linkMap.set role (clPush (ctx.linkMap.getD role default) target) })
    updCtx st1 target (fun ctx =>
      { ctx with predMap := ctx.predMap.set role (clPush (ctx.predMap.getD role default) source) })

/-- The guarded super add-and-enqueue idiom of c-impl saturate. -/
def addSuperPush (c e : Nat) (st : SatState) : SatState :=
  if superSetContains (getCtx st c) e then st
  else
    { st with contexts := st.contexts.set c (superSetAdd (getCtx st c) e),
              worklist := ⟨c, e⟩ :: st.worklist,
              hist := ⟨c, e⟩ :: st.hist }

/-- CR1 block of c-impl saturate, guarded by d < store->num_concepts. -/
def cr1 (store : Store) (c d : Nat) (st : SatState) : SatState :=
  if d < store.numConcepts then
    (store.subToSups.getD d []).foldl (fun s e => addSuperPush c e s) st
  else st

/-- CR3 block of c-impl saturate: for each (role, fill) in
exist_right[d], unless link_exists, add_link and enqueue the link
trigger.  Guarded by d < store->num_concepts. -/
def cr3 (store : Store) (c d : Nat) (st : SatState) : SatState :=
  if d < store.numConcepts then
    (store.existRight.getD d []).foldl (fun s rf =>
      if linkExists (getCtx s c) rf.role rf.fill then s
      else
        let s1 := addLink s c rf.fill rf.role
        { s1 with linkWorklist := ⟨c, rf.role, rf.fill⟩ :: s1.linkWorklist,
                  lhist := ⟨c, rf.role, rf.fill⟩ :: s1.lhist }) st
  else st

/-- Processing of one dequeued WorkItem in c-impl saturate: CR1 and CR3.
The CR4-backward loop of the source iterates roles and predecessors with
an EMPTY body (the comment in the source says it is simplified), so it
changes nothing and is not represented. -/
def procSuper (store : Store) (it : WorkItem) (st : SatState) : SatState :=
  cr3 store it.concept it.added (cr1 store it.concept it.added st)

/-- CR5 block of c-impl saturate.  The CR4-forward loop of the source
iterates the superset of the target with an empty body (simplified in
the source) and is not represented. -/
def cr5 (c d : Nat) (st : SatState) : SatState :=
  if superSetContains (getCtx st d) BOTTOM then
    if superSetContains (getCtx st c) BOTTOM then st
    else addSuperPush c BOTTOM st
  else st

/-- Processing of one dequeued LinkItem in c-impl saturate. -/
def procLink (li : LinkItem) (st : SatState) : SatState :=
  cr5 li.source li.target st

/-- One transition of the nested drain loops of c-impl saturate. -/
def step (store : Store) (st : SatState) : SatState :=
  if st.phase then
    match st.worklist with
    | it :: rest => procSuper store it { st with worklist := rest }
    | [] => { st with phase := false }
  else
    match st.linkWorklist with
    | li :: rest => procLink li { st with linkWorklist := rest }
    | [] => { st with phase := true }

/-- Halting condition of the outer while loop. -/
def finished (st : SatState) : Bool :=
  st.worklist.isEmpty && st.linkWorklist.isEmpty

/-- Fuelled execution of the c-impl saturation loop. -/
def run (store : Store) : Nat → SatState → SatState
  | 0, st => st
  | fuel + 1, st => if finished st then st else run store fuel (step store st)

/-- Context initialization of c-impl saturate: calloc gives empty
super_set, then super_set_add(c) and super_set_add(TOP); link_map and
pred_map are calloc'd ConceptList arrays (all items empty, capacity 0). -/
def initCtx (numRoles : Nat) (c : Nat) : Context :=
  superSetAdd (superSetAdd
    { superSet := [], linkMap := List.replicate numRoles default,
      predMap := List.replicate numRoles default } c) TOP

/-- The initial worklist of c-impl saturate: for c = 0 .. n-1 the items
(c, c) then (c, TOP) are written in order; the array is drained from the
top, which the cons-stack reproduces. -/
def initItems (n : Nat) : List WorkItem :=
  (List.range n).foldl (fun acc c => (⟨c, TOP⟩ : WorkItem) :: ⟨c, c⟩ :: acc) []

/-- State of c-impl saturate on entry to the main loop. -/
def initState (n numRoles : Nat) : SatState :=
  { contexts := (List.range n).map (initCtx numRoles)
    worklist := initItems n
    linkWorklist := []
    phase := true
    hist := initItems n
    lhist := [] }

/-- count_inferred from c-impl/main.c. -/
def countInferredC (contexts : List Context) (numConcepts : Nat) : Nat :=
  ((List.range numConcepts).drop 2).foldl (fun t c =>
    let sz := (contexts.getD c default).superSet.length
    if 2 < sz then t + (sz - 2) else t) 0

end CImpl

namespace Cpp

/-- Association-list analogue of creating-or-extending an
unordered_map entry: append v to the list stored under key k, creating
the entry when absent. -/
def assocAppend (m : List (Nat × List Nat)) (k v : Nat) : List (Nat × List Nat) :=
  match m with
  | [] => [(k, [v])]
  | (k1, l) :: rest =>
      if k1 = k then (k1, l ++ [v]) :: rest else (k1, l) :: assocAppend rest k v

/-- Modelled from the spec: addConjunction(A1, A2, B) is part of the
ingest interface of section 4.1 and 6 of the spec but is absent from
both source files (only the conj_index field it would fill, and the CR2
lookup that consumes it, are in the sources).  Following the spec words,
it appends B to conjIndex[A1][A2] and to conjIndex[A2][A1]. -/
def addConjunction (store : Store) (a1 a2 b : Nat) : Store :=
  let ci1 := store.conjIndex.set a1 (assocAppend (store.conjIndex.getD a1 []) a2 b)
  let ci2 := ci1.set a2 (assocAppend (ci1.getD a2 []) a1 b)
  { store with conjIndex := ci2 }

/-- Modelled from the spec: addExistLeft(r, B, A) is part of the ingest
interface of section 4.1 and 6 of the spec but is absent from both
source files (only the exist_left field, and the CR4 lookups that
consume it, are in the sources).  Following the spec words, it appends A
to existLeft[r][B]. -/
def addExistLeft (store : Store) (r b a : Nat) : Store :=
  { store with existLeft := store.existLeft.set r (assocAppend (store.existLeft.getD r []) b a) }

/-- The keyed conjunction access of the CR2 block of cpp-impl saturate:
the conclusions stored for the pair (d, d2), empty when no entry
exists. -/
def cr2Results (store : Store) (d d2 : Nat) : List Nat :=
  ((store.conjIndex.getD d []).lookup d2).getD []

/-- The keyed access exist_left[r].at(e) of the CR4 blocks of cpp-impl
saturate, empty when no entry exists. -/
def cr4Results (store : Store) (r e : Nat) : List Nat :=
  ((store.existLeft.getD r []).lookup e).getD []

/-- Total number of derived facts held by one context: superset entries
plus outgoing links.  Used by the termination measure. -/
def ctxFacts (ctx : Context) : Nat :=
  ctx.superSet.length + (ctx.linkMap.map List.length).sum

/-- Total number of derived facts of a state. -/
def facts (st : SatState) : Nat :=
  (st.contexts.map ctxFacts).sum

/-- Upper bound on facts for dimensions (n, numRoles): n supersets of at
most n distinct in-range entries, and n times numRoles link lists of at
most n distinct in-range targets. -/
def maxFacts (n numRoles : Nat) : Nat :=
  n * n + n * (numRoles * n)

/-- One when the list the current phase drains is empty (a phase switch
is imminent), zero otherwise. -/
def phaseBit (st : SatState) : Nat :=
  if st.phase then (if st.worklist = [] then 1 else 0)
  else (if st.linkWorklist = [] then 1 else 0)

/-- Termination measure for the saturation loop: it strictly decreases
at every step that is not finished. -/
def phi (n numRoles : Nat) (st : SatState) : Nat :=
  3 * (maxFacts n numRoles - facts st) +
    2 * (st.worklist.length + st.linkWorklist.length) + phaseBit st

/-- The loop invariant of cpp-impl saturate for dimensions (n, numRoles):
contexts are well-sized, supersets and link lists are duplicate-free
with in-range entries, every context holds itself and TOP, worklist
items address in-range contexts, and the enqueue journals record only
facts that are (still) present, with the initialization duplicate
(TOP, TOP) as the only repeated entry. -/
structure Inv (n numRoles : Nat) (st : SatState) : Prop where
  ctxLen : st.contexts.length = n
  ssNodup : ∀ c, (getCtx st c).superSet.Nodup
  ssLt : ∀ c, ∀ x ∈ (getCtx st c).superSet, x < n
  lmLen : ∀ c < n, (getCtx st c).linkMap.length = numRoles
  lmNodup : ∀ c r, ((getCtx st c).linkMap.getD r []).Nodup
  lmLt : ∀ c r, ∀ x ∈ (getCtx st c).linkMap.getD r [], x < n
  pmLt : ∀ c r, ∀ x ∈ (getCtx st c).predMap.getD r [], x < n
  selfMem : ∀ c < n, c ∈ (getCtx st c).superSet
  topMem : ∀ c < n, TOP ∈ (getCtx st c).superSet
  wlLt : ∀ it ∈ st.worklist, it.concept < n
  lwlOk : ∀ li ∈ st.linkWorklist, li.source < n ∧ li.role < numRoles ∧ li.target < n
  histMem : ∀ it ∈ st.hist, it.added ∈ (getCtx st it.concept).superSet
  histCnt : ∀ it : WorkItem, st.hist.count it ≤ (if it.concept = 0 ∧ it.added = 0 then 2 else 1)
  lhistMem : ∀ li ∈ st.lhist, li.target ∈ (getCtx st li.source).linkMap.getD li.role []
  lhistCnt : ∀ li : LinkItem, st.lhist.count li ≤ 1

/-- The enumeration of section 4.5 of the spec, written from the spec
words: the sum, over every concept c other than TOP and BOTTOM, of the
cardinality of S(c) minus the trivial members c and TOP. -/
def specInferredSum (n : Nat) (st : SatState) : Nat :=
  ((List.range n).drop 2).foldl (fun t c =>
    t + ((getCtx st c).superSet.filter (fun x => x ≠ c ∧ x ≠ TOP)).length) 0

end Cpp

namespace CImpl

/-- hash_get_or_insert from c-impl/main.c: scan the entry array for the
key; on a hit return the stored value, on a miss append the key with
value *next_id and post-increment the counter.  Returns the value, the
updated entries and the updated counter. -/
def hashGetOrInsert (m : List (String × Nat)) (key : String) (next : Nat) :
    Nat × List (String × Nat) × Nat :=
  match m.lookup key with
  | some v => (v, m, next)
  | none => (next, m ++ [(key, next)], next + 1)

/-- The role-interning call of c-impl main: the next-identifier argument
passed to hash_get_or_insert is the address of a fresh compound-literal
temporary (ConceptId){0}, so every call starts the counter at 0. -/
def roleGetOrInsert (m : List (String × Nat)) (key : String) : Nat × List (String × Nat) :=
  let r := hashGetOrInsert m key 0
  (r.1, r.2.1)

/-- The role map accumulated by c-impl main over the stream of role
names read from relationship lines. -/
def buildRoleMap (roles : List String) : List (String × Nat) :=
  roles.foldl (fun m k => (roleGetOrInsert m k).2) []

/-- A parsed subsumption axiom of c-impl main (SubAx there). -/
structure SubAx where
  sub : Nat
  sup : Nat
deriving DecidableEq

/-- A parsed relationship axiom of c-impl main (RelAx there). -/
structure RelAx where
  sub : Nat
  role : Nat
  target : Nat
deriving DecidableEq

/-- The guarded store of a parsed axiom in c-impl main: it is appended
only while the count is below the capacity; past the capacity the axiom
is dropped and parsing continues with no error or diagnostic. -/
def cappedPush {α : Type} (cap : Nat) (l : List α) (a : α) : List α :=
  if l.length < cap then l ++ [a] else l

/-- The subsumption axioms retained by c-impl main from the parsed
stream. -/
def retainedSubs (axs : List SubAx) : List SubAx :=
  axs.foldl (cappedPush INITIAL_CAP) []

/-- The relationship axioms retained by c-impl main from the parsed
stream. -/
def retainedRels (axs : List RelAx) : List RelAx :=
  axs.foldl (cappedPush INITIAL_CAP) []

end CImpl

/-- Store of the CR5-closure scenario: concepts TOP, BOTTOM, C=2, A=3,
B=4 and one role, with the facts A subsumed-by exists-r.B (exist_right
of 3), B subsumed-by exists-r.C (exist_right of 4) and C subsumed-by
BOTTOM (sub_to_sups of 2). -/
def c1Store : Cpp.Store :=
  { subToSups := [[], [], [BOTTOM], [], []]
    conjIndex := [[], [], [], [], []]
    existRight := [[], [], [], [⟨0, 4⟩], [⟨0, 2⟩]]
    existLeft := [[]] }

/-- Store of spec scenario 2 (CR4 forward) for the C++ implementation:
A=2, B=3, C=4, D=5, role r=0; axioms A subsumed-by exists-r.B, B
subsumed-by C, exists-r.C subsumed-by D. -/
def c2StoreCpp : Cpp.Store :=
  { subToSups := [[], [], [], [4], [], []]
    conjIndex := [[], [], [], [], [], []]
    existRight := [[], [], [⟨0, 3⟩], [], [], []]
    existLeft := [[(4, [5])]] }

/-- The same store as c2StoreCpp, laid out in the C implementation's
AxiomStore struct. -/
def c2StoreC : CImpl.Store :=
  { numConcepts := 6, numRoles := 1
    subToSups := [[], [], [], [4], [], []]
    conjIndex := [[], [], [], [], [], []]
    existRight := [[], [], [⟨0, 3⟩], [], [], []]
    existLeft := [[(4, [5])]] }

/-- Store with one conjunction axiom TOP-and-A subsumed-by B (A=2, B=3)
for the C++ implementation. -/
def c4StoreCpp : Cpp.Store :=
  { subToSups := [[], [], [], []]
    conjIndex := [[], [], [(0, [3])], []]
    existRight := [[], [], [], []]
    existLeft := [[]] }

/-- The same conjunction store in the C implementation's struct. -/
def c4StoreC : CImpl.Store :=
  { numConcepts := 4, numRoles := 1
    subToSups := [[], [], [], []]
    conjIndex := [[], [], [(0, [3])], []]
    existRight := [[], [], [], []]
    existLeft := [[]] }

/-- Store with the duplicated axiom A subsumed-by exists-r1.B stated
twice (A=2, B=3, role 1 of 2 roles), for the C implementation. -/
def c7Store : CImpl.Store :=
  { numConcepts := 4, numRoles := 2
    subToSups := [[], [], [], []]
    conjIndex := [[], [], [], []]
    existRight := [[], [], [⟨1, 3⟩, ⟨1, 3⟩], []]
    existLeft := [[], []] }

/-- The empty store over two concepts and one role. -/
def trivStore : Cpp.Store :=
  { subToSups := [[], []], conjIndex := [[], []], existRight := [[], []], existLeft := [[]] }

/-! Generic list lemmas used throughout the development. -/

section Helpers

variable {α β : Type}

theorem list_getD_set_self (l : List α) (i : Nat) (x d : α) (h : i < l.length) :
    (l.set i x).getD i d = x := by
  simp [List.getD_eq_getD_get?, List.get?_eq_getElem?, List.getElem?_set_eq_of_lt _ h]

theorem list_getD_set_ne (l : List α) {i j : Nat} (x d : α) (h : i ≠ j) :
    (l.set i x).getD j d = l.getD j d := by
  simp [List.getD_eq_getD_get?, List.get?_eq_getElem?, List.getElem?_set_ne h]

theorem list_mem_getD_exists {x : α} {l : List (List α)} {i : Nat}
    (h : x ∈ l.getD i []) : ∃ m ∈ l, x ∈ m := by
  by_cases hi : i < l.length
  · rw [List.getD_eq_getElem _ _ hi] at h
    exact ⟨l[i], List.getElem_mem hi, h⟩
  · rw [List.getD_eq_default _ _ (le_of_not_lt hi)] at h
    cases h

theorem list_lookup_mem [BEq α] [LawfulBEq α] {k : α} {v : β} :
    ∀ {m : List (α × β)}, m.lookup k = some v → (k, v) ∈ m := by
  intro m
  induction m with
  | nil => intro h; cases h
  | cons p t ih =>
    obtain ⟨k1, b⟩ := p
    intro h
    rw [List.lookup] at h
    by_cases hk : k == k1
    · simp [hk] at h
      rw [eq_of_beq hk, ← h]
      exact List.mem_cons_self _ _
    · simp [hk] at h
      exact List.mem_cons_of_mem _ (ih h)

theorem list_sum_map_set (f : α → Nat) :
    ∀ (l : List α) (i : Nat) (x d : α), i < l.length →
      ((l.set i x).map f).sum + f (l.getD i d) = (l.map f).sum + f x := by
  intro l
  induction l with
  | nil => intro i x d h; cases h
  | cons a t ih =>
    intro i x d hi
    cases i with
    | zero =>
      simp only [List.set_cons_zero, List.map_cons, List.sum_cons, List.getD_cons_zero]
      omega
    | succ k =>
      have hk : k < t.length := by simpa using hi
      have h2 := ih k x d hk
      simp only [List.set_cons_succ, List.map_cons, List.sum_cons, List.getD_cons_succ]
      omega

theorem list_nodup_lt_length_le {l : List Nat} {n : Nat}
    (hnd : l.Nodup) (hlt : ∀ x ∈ l, x < n) : l.length ≤ n := by
  classical
  rw [← List.toFinset_card_of_nodup hnd]
  have hsub : l.toFinset ⊆ Finset.range n := by
    intro x hx
    simp only [List.mem_toFinset] at hx
    simpa using hlt x hx
  simpa using Finset.card_le_card hsub

theorem list_foldl_induction {σ : Type} (f : σ → α → σ) (P : σ → Prop) :
    ∀ (l : List α) (s : σ), P s → (∀ s1 a, a ∈ l → P s1 → P (f s1 a)) → P (l.foldl f s) := by
  intro l
  induction l with
  | nil => intro s h _; exact h
  | cons a t ih =>
    intro s h hstep
    exact ih (f s a) (hstep s a (by simp) h)
      (fun s1 b hb h1 => hstep s1 b (by simp [hb]) h1)

theorem list_foldl_ext_mem {σ : Type} (f g : σ → α → σ) :
    ∀ (l : List α) (s : σ), (∀ s1 a, a ∈ l → f s1 a = g s1 a) → l.foldl f s = l.foldl g s := by
  intro l
  induction l with
  | nil => intro s _; rfl
  | cons a t ih =>
    intro s h
    rw [List.foldl_cons, List.foldl_cons, h s a (by simp)]
    exact ih _ (fun s1 b hb => h s1 b (by simp [hb]))

end Helpers

/-! Unfolding and length lemmas for the initial worklists. -/

theorem cpp_initItems_succ (n : Nat) :
    Cpp.initItems (n + 1) = (⟨n, TOP⟩ : Cpp.WorkItem) :: ⟨n, n⟩ :: Cpp.initItems n := by
  unfold Cpp.initItems
  rw [List.range_succ, List.foldl_append]
  rfl

theorem c_initItems_succ (n : Nat) :
    CImpl.initItems (n + 1) = (⟨n, TOP⟩ : CImpl.WorkItem) :: ⟨n, n⟩ :: CImpl.initItems n := by
  unfold CImpl.initItems
  rw [List.range_succ, List.foldl_append]
  rfl

theorem c_initItems_length (n : Nat) : (CImpl.initItems n).length = 2 * n := by
  induction n with
  | zero => rfl
  | succ k ih =>
    rw [c_initItems_succ, List.length_cons, List.length_cons, ih]
    omega

theorem foldl_cappedPush_eq_take {α : Type} (cap : Nat) :
    ∀ (l acc : List α), acc.length ≤ cap →
      l.foldl (CImpl.cappedPush cap) acc = acc ++ l.take (cap - acc.length) := by
  intro l
  induction l with
  | nil => intro acc h; simp
  | cons a t ih =>
    intro acc h
    rw [List.foldl_cons]
    by_cases hlt : acc.length < cap
    · have hstep : CImpl.cappedPush cap acc a = acc ++ [a] := by
        simp [CImpl.cappedPush, hlt]
      rw [hstep, ih _ (by simpa using Nat.succ_le_of_lt hlt)]
      have h1 : (acc ++ [a]).length = acc.length + 1 := by simp
      rw [h1]
      have h2 : cap - acc.length = (cap - (acc.length + 1)) + 1 := by omega
      rw [h2, List.take_succ_cons]
      simp
    · have hstep : CImpl.cappedPush cap acc a = acc := by
        simp [CImpl.cappedPush, hlt]
      rw [hstep, ih _ h]
      have hc : acc.length = cap := le_antisymm h (le_of_not_lt hlt)
      simp [hc]

/-- C1: the claim states that after saturate returns the contexts are
closed under CR1 to CR5, in particular that every link c -r-> d present
at quiescence with BOTTOM in S(d) has BOTTOM in S(c).  This theorem
evaluates the C++ implementation on the store c1Store (A subsumed-by
exists-r.B, B subsumed-by exists-r.C, C subsumed-by BOTTOM with C=2,
A=3, B=4) and shows the run finishes with the link 3 -r-> 4 installed
and BOTTOM in S(4) but BOTTOM NOT in S(3): BOTTOM reaches S(4) only via
CR5 on the link 4 -r-> 2 after the link trigger (3, r, 4) was already
consumed, and no rule revisits existing links when BOTTOM arrives.  The
code therefore violates the claimed closure property. -/
theorem c1_cpp_cr5_closure_fails :
    Cpp.finished (Cpp.run c1Store 1 40 (Cpp.initState 5 1)) = true ∧
    Cpp.hasLink (Cpp.run c1Store 1 40 (Cpp.initState 5 1)) 3 0 4 = true ∧
    Cpp.hasSuper (Cpp.run c1Store 1 40 (Cpp.initState 5 1)) 4 BOTTOM = true ∧
    Cpp.hasSuper (Cpp.run c1Store 1 40 (Cpp.initState 5 1)) 3 BOTTOM = false := by
  decide

/-- C2: the claim states that with axioms A subsumed-by exists-r.B,
B subsumed-by C, exists-r.C subsumed-by D, saturation puts D into S(A).
Evaluating both implementations on that store (A=2, B=3, C=4, D=5):
the C++ implementation derives 5 into S(2) as claimed, but the C
implementation finishes WITHOUT 5 in S(2), because its CR4 loops have
empty bodies (the source comments call them simplified). -/
theorem c2_c_impl_misses_cr4 :
    CImpl.finished (CImpl.run c2StoreC 40 (CImpl.initState 6 1)) = true ∧
    CImpl.superSetContains (CImpl.getCtx (CImpl.run c2StoreC 40 (CImpl.initState 6 1)) 2) 5 = false ∧
    Cpp.finished (Cpp.run c2StoreCpp 1 40 (Cpp.initState 6 1)) = true ∧
    Cpp.hasSuper (Cpp.run c2StoreCpp 1 40 (Cpp.initState 6 1)) 2 5 = true := by
  decide

/-- C4: the claim states the C and C++ saturate are equivalent on every
store.  On the store with the single conjunction axiom TOP-and-A
subsumed-by B (conjIndex entry (0, [3]) under concept 2), the C++
implementation applies CR2 and infers B in S(A) (countInferred 1) while
the C implementation, which has no CR2 at all, infers nothing
(countInferred 0).  Both runs reach quiescence, so the implementations
are not equivalent. -/
theorem c4_implementations_differ :
    Cpp.finished (Cpp.run c4StoreCpp 1 40 (Cpp.initState 4 1)) = true ∧
    CImpl.finished (CImpl.run c4StoreC 40 (CImpl.initState 4 1)) = true ∧
    Cpp.countInferred (Cpp.run c4StoreCpp 1 40 (Cpp.initState 4 1)).contexts = 1 ∧
    CImpl.countInferredC (CImpl.run c4StoreC 40 (CImpl.initState 4 1)).contexts 4 = 0 ∧
    Cpp.hasSuper (Cpp.run c4StoreCpp 1 40 (Cpp.initState 4 1)) 2 3 = true ∧
    CImpl.superSetContains (CImpl.getCtx (CImpl.run c4StoreC 40 (CImpl.initState 4 1)) 2) 3 = false := by
  decide

/-- C6 counterexample: the claim states every distinct trigger is
enqueued at most once over the whole run.  On the empty two-concept
store the full C++ run enqueues the super-trigger (0, 0) twice, because
initialization pushes (c, c) and (c, TOP) for every c and the two
coincide for c = TOP = 0.  (The enqueue journal hist records every push
of the run.) -/
theorem c6_counterexample_top_enqueued_twice :
    Cpp.finished (Cpp.run trivStore 1 20 (Cpp.initState 2 1)) = true ∧
    (Cpp.run trivStore 1 20 (Cpp.initState 2 1)).hist.count ⟨0, 0⟩ = 2 := by
  decide

/-- C7: the claim states that inserting an already present element into
linkMap is a no-op and enqueues nothing.  In the C implementation,
link_exists tests the role against the CAPACITY OF link_map[0]; with
the store c7Store (axiom A subsumed-by exists-r1.B stated twice, role 1
of 2, A=2, B=3) the second insertion of the existing link 2 -1-> 3 is
not detected (link_map[0] still has capacity 0), so the link list ends
as [3, 3] and the link trigger (2, 1, 3) is enqueued twice,
contradicting the claim. -/
theorem c7_duplicate_link_and_trigger :
    CImpl.finished (CImpl.run c7Store 40 (CImpl.initState 4 2)) = true ∧
    ((CImpl.getCtx (CImpl.run c7Store 40 (CImpl.initState 4 2)) 2).linkMap.getD 1 default).items
      = [3, 3] ∧
    (CImpl.run c7Store 40 (CImpl.initState 4 2)).lhist.count ⟨2, 1, 3⟩ = 2 := by
  decide

/-- C9: the C implementation stores a parsed subsumption or relationship
axiom only while the respective count is below INITIAL_CAP = 250000;
every later axiom is silently dropped (the capped push returns the list
unchanged, with no error path).  Hence the retained axioms are exactly
the first 250000 of the parsed stream, in order. -/
theorem c9_caps_retain_prefix (subs : List CImpl.SubAx) (rels : List CImpl.RelAx) :
    CImpl.retainedSubs subs = subs.take CImpl.INITIAL_CAP ∧
    CImpl.retainedRels rels = rels.take CImpl.INITIAL_CAP := by
  constructor
  · unfold CImpl.retainedSubs
    rw [foldl_cappedPush_eq_take _ _ _ (by simp)]
    simp
  · unfold CImpl.retainedRels
    rw [foldl_cappedPush_eq_take _ _ _ (by simp)]
    simp

/-- C10 counterexample: the claim states the number of pending
super-triggers never exceeds WORKLIST_CAP = 4000000.  The C saturate
enqueues two super-triggers per concept during initialization with no
bounds check, so for an input with 2000001 concepts the worklist already
holds 4000002 pending entries when the main loop starts. -/
theorem c_initState_worklist (n numRoles : Nat) :
    (CImpl.initState n numRoles).worklist = CImpl.initItems n := rfl

theorem c10_counterexample_overflow :
    CImpl.WORKLIST_CAP < ((CImpl.initState 2000001 1).worklist).length := by
  rw [c_initState_worklist, c_initItems_length]
  norm_num [CImpl.WORKLIST_CAP]

/-- C10 amended: the worklist arrays have no bounds check and the
pending count is not bounded by the capacity; for every input with more
than 2000000 concepts the super worklist exceeds WORKLIST_CAP already at
initialization, so not every enqueue writes in bounds. -/
theorem c10_amended_overflow (n numRoles : Nat) (h : 2000000 < n) :
    CImpl.WORKLIST_CAP < ((CImpl.initState n numRoles).worklist).length := by
  rw [c_initState_worklist, c_initItems_length]
  simp only [CImpl.WORKLIST_CAP]
  omega

/-- C10 witness: the amended overflow statement at the concrete input
2000002. -/
theorem c10_amended_overflow_witness :
    2000000 < 2000002 ∧
    CImpl.WORKLIST_CAP < ((CImpl.initState 2000002 1).worklist).length :=
  ⟨by norm_num, c10_amended_overflow 2000002 1 (by norm_num)⟩

/-- C8: in the C implementation parser, the next-identifier argument of
the role-interning hash_get_or_insert call is a fresh temporary 0 on
every call, so every role name is assigned identifier 0: all entries of
the accumulated role map carry value 0, and the identifier returned for
any role name is 0.  All relationship axioms are therefore stored under
the same RId. -/
theorem c8_all_roles_get_id_zero (roles : List String) :
    (∀ e ∈ CImpl.buildRoleMap roles, e.snd = 0) ∧
    (∀ key, (CImpl.roleGetOrInsert (CImpl.buildRoleMap roles) key).fst = 0) := by
  have hall : ∀ e ∈ CImpl.buildRoleMap roles, e.snd = 0 := by
    unfold CImpl.buildRoleMap
    refine list_foldl_induction (fun m k => (CImpl.roleGetOrInsert m k).2)
      (fun m => ∀ e ∈ m, e.snd = 0) roles [] ?_ ?_
    · intro e he; cases he
    · intro m k _ hm
      cases hl : m.lookup k with
      | some v =>
        simpa [CImpl.roleGetOrInsert, CImpl.hashGetOrInsert, hl] using hm
      | none =>
        simp only [CImpl.roleGetOrInsert, CImpl.hashGetOrInsert, hl]
        intro e he
        rcases List.mem_append.mp he with h1 | h1
        · exact hm e h1
        · simp only [List.mem_singleton] at h1
          rw [h1]
  refine ⟨hall, ?_⟩
  intro key
  cases hl : (CImpl.buildRoleMap roles).lookup key with
  | some v =>
    have hv := hall _ (list_lookup_mem hl)
    simpa [CImpl.roleGetOrInsert, CImpl.hashGetOrInsert, hl] using hv
  | none =>
    simp [CImpl.roleGetOrInsert, CImpl.hashGetOrInsert, hl]

/-- C8 witness: the theorem applied to the concrete role-name stream
containing two distinct role names. -/
theorem c8_all_roles_get_id_zero_witness :
    ((⟨"has_part", 0⟩ : String × Nat) ∈ CImpl.buildRoleMap ["part_of", "has_part"]) ∧
    (⟨"has_part", 0⟩ : String × Nat).snd = 0 ∧
    (CImpl.roleGetOrInsert (CImpl.buildRoleMap ["part_of", "has_part"]) "part_of").fst = 0 :=
  ⟨by decide,
   (c8_all_roles_get_id_zero ["part_of", "has_part"]).1 _ (by decide),
   (c8_all_roles_get_id_zero ["part_of", "has_part"]).2 "part_of"⟩

theorem cpp_getCtx_updCtx_self {st : Cpp.SatState} {c : Nat} (f : Cpp.Context → Cpp.Context)
    (hc : c < st.contexts.length) :
    Cpp.getCtx (Cpp.updCtx st c f) c = f (Cpp.getCtx st c) := by
  unfold Cpp.getCtx Cpp.updCtx
  exact list_getD_set_self _ _ _ _ hc

theorem cpp_getCtx_updCtx_ne {st : Cpp.SatState} {c c1 : Nat} (f : Cpp.Context → Cpp.Context)
    (h : c ≠ c1) :
    Cpp.getCtx (Cpp.updCtx st c f) c1 = Cpp.getCtx st c1 := by
  unfold Cpp.getCtx Cpp.updCtx
  exact list_getD_set_ne _ _ _ h

theorem cpp_getCtx_updCtx_big {st : Cpp.SatState} {c : Nat} (f : Cpp.Context → Cpp.Context)
    (hc : st.contexts.length ≤ c) {c1 : Nat} :
    Cpp.getCtx (Cpp.updCtx st c f) c1 = Cpp.getCtx st c1 := by
  by_cases h : c = c1
  · subst h
    unfold Cpp.getCtx Cpp.updCtx
    rw [List.getD_eq_default _ _ (by simpa using hc), List.getD_eq_default _ _ hc]
  · exact cpp_getCtx_updCtx_ne f h

theorem cpp_updCtx_superSet {st : Cpp.SatState} {c : Nat} (f : Cpp.Context → Cpp.Context)
    (hf : ∀ ctx, (f ctx).superSet = ctx.superSet) (c1 : Nat) :
    (Cpp.getCtx (Cpp.updCtx st c f) c1).superSet = (Cpp.getCtx st c1).superSet := by
  by_cases hlen : c < st.contexts.length
  · by_cases h : c = c1
    · subst h
      rw [cpp_getCtx_updCtx_self f hlen, hf]
    · rw [cpp_getCtx_updCtx_ne f h]
  · rw [cpp_getCtx_updCtx_big f (le_of_not_lt hlen)]

theorem cpp_updCtx_linkMap {st : Cpp.SatState} {c : Nat} (f : Cpp.Context → Cpp.Context)
    (hf : ∀ ctx, (f ctx).linkMap = ctx.linkMap) (c1 : Nat) :
    (Cpp.getCtx (Cpp.updCtx st c f) c1).linkMap = (Cpp.getCtx st c1).linkMap := by
  by_cases hlen : c < st.contexts.length
  · by_cases h : c = c1
    · subst h
      rw [cpp_getCtx_updCtx_self f hlen, hf]
    · rw [cpp_getCtx_updCtx_ne f h]
  · rw [cpp_getCtx_updCtx_big f (le_of_not_lt hlen)]

theorem cpp_updCtx_predMap {st : Cpp.SatState} {c : Nat} (f : Cpp.Context → Cpp.Context)
    (hf : ∀ ctx, (f ctx).predMap = ctx.predMap) (c1 : Nat) :
    (Cpp.getCtx (Cpp.updCtx st c f) c1).predMap = (Cpp.getCtx st c1).predMap := by
  by_cases hlen : c < st.contexts.length
  · by_cases h : c = c1
    · subst h
      rw [cpp_getCtx_updCtx_self f hlen, hf]
    · rw [cpp_getCtx_updCtx_ne f h]
  · rw [cpp_getCtx_updCtx_big f (le_of_not_lt hlen)]

theorem cpp_updCtx_length {st : Cpp.SatState} {c : Nat} (f : Cpp.Context → Cpp.Context) :
    (Cpp.updCtx st c f).contexts.length = st.contexts.length := by
  unfold Cpp.updCtx
  simp

theorem cpp_facts_updCtx {st : Cpp.SatState} {c : Nat} (f : Cpp.Context → Cpp.Context)
    (hc : c < st.contexts.length) :
    Cpp.facts (Cpp.updCtx st c f) + Cpp.ctxFacts (Cpp.getCtx st c)
      = Cpp.facts st + Cpp.ctxFacts (f (Cpp.getCtx st c)) := by
  unfold Cpp.facts Cpp.updCtx Cpp.getCtx
  exact list_sum_map_set Cpp.ctxFacts _ _ _ _ hc

theorem cpp_ctxFacts_bound {n R : Nat} {st : Cpp.SatState} (inv : Cpp.Inv n R st)
    (c : Nat) (hc : c < n) : Cpp.ctxFacts (Cpp.getCtx st c) ≤ n + R * n := by
  unfold Cpp.ctxFacts
  have h1 : (Cpp.getCtx st c).superSet.length ≤ n :=
    list_nodup_lt_length_le (inv.ssNodup c) (inv.ssLt c)
  have h2 : ((Cpp.getCtx st c).linkMap.map List.length).sum ≤ R * n := by
    have hlen : (Cpp.getCtx st c).linkMap.length = R := inv.lmLen c hc
    have hbnd : ∀ x ∈ (Cpp.getCtx st c).linkMap.map List.length, x ≤ n := by
      intro x hx
      rcases List.mem_map.mp hx with ⟨l, hl, rfl⟩
      rcases List.mem_iff_getElem.mp hl with ⟨j, hj, rfl⟩
      rw [← List.getD_eq_getElem _ ([] : List Nat) hj]
      exact list_nodup_lt_length_le (inv.lmNodup c j) (inv.lmLt c j)
    calc ((Cpp.getCtx st c).linkMap.map List.length).sum
        ≤ ((Cpp.getCtx st c).linkMap.map List.length).length * n := by
          simpa [smul_eq_mul] using List.sum_le_card_nsmul _ n hbnd
      _ = R * n := by simp [hlen]
  omega

theorem cpp_facts_le_max {n R : Nat} {st : Cpp.SatState} (inv : Cpp.Inv n R st) :
    Cpp.facts st ≤ Cpp.maxFacts n R := by
  unfold Cpp.facts Cpp.maxFacts
  have hbnd : ∀ x ∈ st.contexts.map Cpp.ctxFacts, x ≤ n + R * n := by
    intro x hx
    rcases List.mem_map.mp hx with ⟨ctx, hctx, rfl⟩
    rcases List.mem_iff_getElem.mp hctx with ⟨j, hj, rfl⟩
    have hj1 : j < n := inv.ctxLen ▸ hj
    rw [← List.getD_eq_getElem _ (default : Cpp.Context) hj]
    exact cpp_ctxFacts_bound inv j hj1
  calc (st.contexts.map Cpp.ctxFacts).sum
      ≤ (st.contexts.map Cpp.ctxFacts).length * (n + R * n) := by
        simpa [smul_eq_mul] using List.sum_le_card_nsmul _ (n + R * n) hbnd
    _ = n * (n + R * n) := by simp [inv.ctxLen]
    _ = n * n + n * (R * n) := by ring

theorem list_nodup_append_singleton {α : Type} {l : List α} {a : α}
    (hnd : l.Nodup) (hnm : a ∉ l) : (l ++ [a]).Nodup := by
  simp [List.nodup_append, hnd, hnm]

theorem cpp_phaseBit_le_one (st : Cpp.SatState) : Cpp.phaseBit st ≤ 1 := by
  unfold Cpp.phaseBit
  split <;> split <;> omega

theorem cpp_addSuperPush_inv {n R : Nat} {st : Cpp.SatState} (inv : Cpp.Inv n R st)
    {c e : Nat} (hc : c < n) (he : e < n) :
    Cpp.Inv n R (Cpp.addSuperPush c e st) ∧
    Cpp.phi n R (Cpp.addSuperPush c e st) ≤ Cpp.phi n R st := by
  by_cases hg : Cpp.hasSuper st c e
  · have heq : Cpp.addSuperPush c e st = st := by
      simp [Cpp.addSuperPush, hg]
    rw [heq]
    exact ⟨inv, le_refl _⟩
  · have hg1 : Cpp.hasSuper st c e = false := by simpa using hg
    have hnm : e ∉ (Cpp.getCtx st c).superSet := by
      simpa [Cpp.hasSuper] using hg1
    have hclen : c < st.contexts.length := by rw [inv.ctxLen]; exact hc
    have hctxs : (Cpp.addSuperPush c e st).contexts =
        st.contexts.set c
          { Cpp.getCtx st c with superSet := (Cpp.getCtx st c).superSet ++ [e] } := by
      unfold Cpp.addSuperPush
      rw [hg1]
      rfl
    have hwl : (Cpp.addSuperPush c e st).worklist = ⟨c, e⟩ :: st.worklist := by
      unfold Cpp.addSuperPush
      rw [hg1]
      rfl
    have hhist : (Cpp.addSuperPush c e st).hist = ⟨c, e⟩ :: st.hist := by
      unfold Cpp.addSuperPush
      rw [hg1]
      rfl
    have hlwl : (Cpp.addSuperPush c e st).linkWorklist = st.linkWorklist := by
      unfold Cpp.addSuperPush
      rw [hg1]
      rfl
    have hphase : (Cpp.addSuperPush c e st).phase = st.phase := by
      unfold Cpp.addSuperPush
      rw [hg1]
      rfl
    have hlhist : (Cpp.addSuperPush c e st).lhist = st.lhist := by
      unfold Cpp.addSuperPush
      rw [hg1]
      rfl
    have hgetc : Cpp.getCtx (Cpp.addSuperPush c e st) c =
        { Cpp.getCtx st c with superSet := (Cpp.getCtx st c).superSet ++ [e] } := by
      unfold Cpp.getCtx
      rw [hctxs]
      exact list_getD_set_self _ _ _ _ hclen
    have hgetne : ∀ c1, c1 ≠ c →
        Cpp.getCtx (Cpp.addSuperPush c e st) c1 = Cpp.getCtx st c1 := by
      intro c1 h1
      unfold Cpp.getCtx
      rw [hctxs]
      exact list_getD_set_ne _ _ _ (Ne.symm h1)
    have hssmono : ∀ c1, ∀ x ∈ (Cpp.getCtx st c1).superSet,
        x ∈ (Cpp.getCtx (Cpp.addSuperPush c e st) c1).superSet := by
      intro c1 x hx
      by_cases h1 : c1 = c
      · subst h1
        rw [hgetc]
        exact List.mem_append_left _ hx
      · rw [hgetne c1 h1]
        exact hx
    have hlmeq : ∀ c1, (Cpp.getCtx (Cpp.addSuperPush c e st) c1).linkMap
        = (Cpp.getCtx st c1).linkMap := by
      intro c1
      by_cases h1 : c1 = c
      · subst h1
        rw [hgetc]
      · rw [hgetne c1 h1]
    have hpmeq : ∀ c1, (Cpp.getCtx (Cpp.addSuperPush c e st) c1).predMap
        = (Cpp.getCtx st c1).predMap := by
      intro c1
      by_cases h1 : c1 = c
      · subst h1
        rw [hgetc]
      · rw [hgetne c1 h1]
    have hinv : Cpp.Inv n R (Cpp.addSuperPush c e st) := by
      refine { ctxLen := ?_, ssNodup := ?_, ssLt := ?_, lmLen := ?_, lmNodup := ?_,
               lmLt := ?_, pmLt := ?_, selfMem := ?_, topMem := ?_, wlLt := ?_,
               lwlOk := ?_, histMem := ?_, histCnt := ?_, lhistMem := ?_, lhistCnt := ?_ }
      · rw [hctxs]
        simpa using inv.ctxLen
      · intro c1
        by_cases h1 : c1 = c
        · rw [h1, hgetc]
          exact list_nodup_append_singleton (inv.ssNodup c) hnm
        · rw [hgetne c1 h1]
          exact inv.ssNodup c1
      · intro c1 x hx
        by_cases h1 : c1 = c
        · rw [h1, hgetc] at hx
          rcases List.mem_append.mp hx with h2 | h2
          · exact inv.ssLt c x h2
          · simp only [List.mem_singleton] at h2
            rw [h2]
            exact he
        · rw [hgetne c1 h1] at hx
          exact inv.ssLt c1 x hx
      · intro c1 h1
        rw [hlmeq]
        exact inv.lmLen c1 h1
      · intro c1 r
        rw [hlmeq]
        exact inv.lmNodup c1 r
      · intro c1 r x hx
        rw [hlmeq] at hx
        exact inv.lmLt c1 r x hx
      · intro c1 r x hx
        rw [hpmeq] at hx
        exact inv.pmLt c1 r x hx
      · intro c1 h1
        exact hssmono c1 c1 (inv.selfMem c1 h1)
      · intro c1 h1
        exact hssmono c1 TOP (inv.topMem c1 h1)
      · intro it hit
        rw [hwl] at hit
        rcases List.mem_cons.mp hit with h2 | h2
        · rw [h2]
          exact hc
        · exact inv.wlLt it h2
      · intro li hli
        rw [hlwl] at hli
        exact inv.lwlOk li hli
      · intro it hit
        rw [hhist] at hit
        rcases List.mem_cons.mp hit with h2 | h2
        · rw [h2]
          rw [hgetc]
          exact List.mem_append_right _ (List.mem_singleton_self e)
        · exact hssmono it.concept it.added (inv.histMem it h2)
      · intro it
        rw [hhist, List.count_cons]
        have hb := inv.histCnt it
        by_cases h2 : it = (⟨c, e⟩ : Cpp.WorkItem)
        · have hcnt0 : st.hist.count it = 0 := by
            apply List.count_eq_zero.mpr
            intro hmem
            have h3 := inv.histMem it hmem
            rw [h2] at h3
            exact hnm h3
          rw [hcnt0, if_pos (by simp [h2])]
          split <;> omega
        · rw [if_neg (by simp only [beq_iff_eq]; exact fun h3 => h2 h3.symm)]
          simpa using hb
      · intro li hli
        rw [hlhist] at hli
        rw [hlmeq]
        exact inv.lhistMem li hli
      · intro li
        rw [hlhist]
        exact inv.lhistCnt li
    refine ⟨hinv, ?_⟩
    have hfacts : Cpp.facts (Cpp.addSuperPush c e st) = Cpp.facts st + 1 := by
      unfold Cpp.facts
      rw [hctxs]
      have hsum := list_sum_map_set Cpp.ctxFacts st.contexts c
        { Cpp.getCtx st c with superSet := (Cpp.getCtx st c).superSet ++ [e] }
        default hclen
      have hgd : st.contexts.getD c default = Cpp.getCtx st c := rfl
      rw [hgd] at hsum
      have hcf : Cpp.ctxFacts
          { Cpp.getCtx st c with superSet := (Cpp.getCtx st c).superSet ++ [e] }
          = Cpp.ctxFacts (Cpp.getCtx st c) + 1 := by
        unfold Cpp.ctxFacts
        simp only [List.length_append, List.length_singleton]
        omega
      omega
    have hle := cpp_facts_le_max hinv
    have hb1 := cpp_phaseBit_le_one (Cpp.addSuperPush c e st)
    unfold Cpp.phi
    rw [hfacts, hwl, hlwl]
    rw [hfacts] at hle
    simp only [List.length_cons]
    omega

theorem list_mem_getD_set_append {α : Type} {m : List (List α)} {i j : Nat} {a x : α}
    (h : x ∈ (m.set i (m.getD i [] ++ [a])).getD j []) : x ∈ m.getD j [] ∨ x = a := by
  by_cases hij : i = j
  · subst hij
    by_cases hlen : i < m.length
    · rw [list_getD_set_self _ _ _ _ hlen] at h
      rcases List.mem_append.mp h with h1 | h1
      · exact Or.inl h1
      · exact Or.inr (by simpa using h1)
    · rw [List.getD_eq_default _ _ (by simpa using le_of_not_lt hlen)] at h
      cases h
  · rw [list_getD_set_ne _ _ _ hij] at h
    exact Or.inl h

theorem cpp_addLinkPush_inv {n R : Nat} {st : Cpp.SatState} (inv : Cpp.Inv n R st)
    {c r t : Nat} (hc : c < n) (hr : r < R) (ht : t < n) :
    Cpp.Inv n R (Cpp.addLinkPush c r t st) ∧
    Cpp.phi n R (Cpp.addLinkPush c r t st) ≤ Cpp.phi n R st := by
  by_cases hg : Cpp.hasLink st c r t
  · have heq : Cpp.addLinkPush c r t st = st := by
      simp [Cpp.addLinkPush, hg]
    rw [heq]
    exact ⟨inv, le_refl _⟩
  · have hg1 : Cpp.hasLink st c r t = false := by simpa using hg
    have hnm : t ∉ (Cpp.getCtx st c).linkMap.getD r [] := by
      simpa [Cpp.hasLink] using hg1
    have hclen : c < st.contexts.length := by rw [inv.ctxLen]; exact hc
    have hrlen : r < (Cpp.getCtx st c).linkMap.length := by rw [inv.lmLen c hc]; exact hr
    set A := Cpp.updCtx st c (fun ctx =>
      { ctx with linkMap := ctx.linkMap.set r (ctx.linkMap.getD r [] ++ [t]) }) with hAdef
    set B := Cpp.updCtx A t (fun ctx =>
      { ctx with predMap := ctx.predMap.set r (ctx.predMap.getD r [] ++ [c]) }) with hBdef
    have hA : Cpp.addLinkPush c r t st =
        { B with linkWorklist := ⟨c, r, t⟩ :: st.linkWorklist,
                 lhist := ⟨c, r, t⟩ :: st.lhist } := by
      unfold Cpp.addLinkPush
      rw [hg1]
      rfl
    have hAlen : A.contexts.length = n := by
      rw [hAdef, cpp_updCtx_length]
      exact inv.ctxLen
    have htlenA : t < A.contexts.length := by rw [hAlen]; exact ht
    have hApm : ∀ c1, (Cpp.getCtx A c1).predMap = (Cpp.getCtx st c1).predMap := by
      intro c1
      rw [hAdef]
      exact cpp_updCtx_predMap (fun ctx => { ctx with linkMap := ctx.linkMap.set r (ctx.linkMap.getD r [] ++ [t]) }) (fun ctx => rfl) c1
    have hAss : ∀ c1, (Cpp.getCtx A c1).superSet = (Cpp.getCtx st c1).superSet := by
      intro c1
      rw [hAdef]
      exact cpp_updCtx_superSet (fun ctx => { ctx with linkMap := ctx.linkMap.set r (ctx.linkMap.getD r [] ++ [t]) }) (fun ctx => rfl) c1
    have hAlm_self : (Cpp.getCtx A c).linkMap
        = (Cpp.getCtx st c).linkMap.set r ((Cpp.getCtx st c).linkMap.getD r [] ++ [t]) := by
      rw [hAdef, cpp_getCtx_updCtx_self _ hclen]
    have hAlm_ne : ∀ c1, c1 ≠ c → (Cpp.getCtx A c1).linkMap = (Cpp.getCtx st c1).linkMap := by
      intro c1 h1
      rw [hAdef, cpp_getCtx_updCtx_ne _ (Ne.symm h1)]
    have hgetB : ∀ c1, Cpp.getCtx (Cpp.addLinkPush c r t st) c1 = Cpp.getCtx B c1 := by
      intro c1
      unfold Cpp.getCtx
      rw [hA]
    have hBlm : ∀ c1, (Cpp.getCtx B c1).linkMap = (Cpp.getCtx A c1).linkMap := by
      intro c1
      rw [hBdef]
      exact cpp_updCtx_linkMap (fun ctx => { ctx with predMap := ctx.predMap.set r (ctx.predMap.getD r [] ++ [c]) }) (fun ctx => rfl) c1
    have hBss : ∀ c1, (Cpp.getCtx B c1).superSet = (Cpp.getCtx st c1).superSet := by
      intro c1
      rw [hBdef]
      rw [cpp_updCtx_superSet (fun ctx => { ctx with predMap := ctx.predMap.set r (ctx.predMap.getD r [] ++ [c]) }) (fun ctx => rfl) c1]
      exact hAss c1
    have hBpm : ∀ c1 r1, ∀ x ∈ (Cpp.getCtx B c1).predMap.getD r1 [],
        x ∈ (Cpp.getCtx st c1).predMap.getD r1 [] ∨ x = c := by
      intro c1 r1 x hx
      by_cases h1 : c1 = t
      · rw [h1, hBdef, cpp_getCtx_updCtx_self _ htlenA] at hx
        have hx2 := list_mem_getD_set_append hx
        rw [hApm t] at hx2
        rw [h1]
        exact hx2
      · rw [hBdef, cpp_getCtx_updCtx_ne _ (fun h2 => h1 h2.symm), hApm c1] at hx
        exact Or.inl hx
    have hgetB : ∀ c1, Cpp.getCtx (Cpp.addLinkPush c r t st) c1 = Cpp.getCtx B c1 := by
      intro c1
      unfold Cpp.getCtx
      rw [hA]
    have hBlm : ∀ c1, (Cpp.getCtx B c1).linkMap = (Cpp.getCtx A c1).linkMap := by
      intro c1
      rw [hBdef]
      exact cpp_updCtx_linkMap (fun ctx => { ctx with predMap := ctx.predMap.set r (ctx.predMap.getD r [] ++ [c]) }) (fun ctx => rfl) c1
    have hll_self : (Cpp.getCtx B c).linkMap.getD r []
        = (Cpp.getCtx st c).linkMap.getD r [] ++ [t] := by
      rw [hBlm c, hAlm_self]
      exact list_getD_set_self _ _ _ _ hrlen
    have hll_other : ∀ c1 r1, ¬(c1 = c ∧ r1 = r) →
        (Cpp.getCtx B c1).linkMap.getD r1 [] = (Cpp.getCtx st c1).linkMap.getD r1 [] := by
      intro c1 r1 h1
      rw [hBlm c1]
      by_cases h2 : c1 = c
      · have h3 : r1 ≠ r := fun h4 => h1 ⟨h2, h4⟩
        rw [h2, hAlm_self]
        exact list_getD_set_ne _ _ _ (fun h4 => h3 h4.symm)
      · rw [hAlm_ne c1 h2]
    have hll_mono : ∀ c1 r1, ∀ x ∈ (Cpp.getCtx st c1).linkMap.getD r1 [],
        x ∈ (Cpp.getCtx B c1).linkMap.getD r1 [] := by
      intro c1 r1 x hx
      by_cases h1 : c1 = c ∧ r1 = r
      · rw [h1.1, h1.2, hll_self]
        rw [h1.1, h1.2] at hx
        exact List.mem_append_left _ hx
      · rw [hll_other c1 r1 h1]
        exact hx
    have hwl : (Cpp.addLinkPush c r t st).worklist = st.worklist := by
      rw [hA]
      rfl
    have hhist : (Cpp.addLinkPush c r t st).hist = st.hist := by
      rw [hA]
      rfl
    have hlwl : (Cpp.addLinkPush c r t st).linkWorklist = ⟨c, r, t⟩ :: st.linkWorklist := by
      rw [hA]
    have hlhist : (Cpp.addLinkPush c r t st).lhist = ⟨c, r, t⟩ :: st.lhist := by
      rw [hA]
    have hinv : Cpp.Inv n R (Cpp.addLinkPush c r t st) := by
      refine { ctxLen := ?_, ssNodup := ?_, ssLt := ?_, lmLen := ?_, lmNodup := ?_,
               lmLt := ?_, pmLt := ?_, selfMem := ?_, topMem := ?_, wlLt := ?_,
               lwlOk := ?_, histMem := ?_, histCnt := ?_, lhistMem := ?_, lhistCnt := ?_ }
      · rw [hA]
        show B.contexts.length = n
        rw [hBdef, cpp_updCtx_length]
        exact hAlen
      · intro c1
        rw [hgetB c1, hBss c1]
        exact inv.ssNodup c1
      · intro c1 x hx
        rw [hgetB c1, hBss c1] at hx
        exact inv.ssLt c1 x hx
      · intro c1 h1
        rw [hgetB c1, hBlm c1]
        by_cases h2 : c1 = c
        · rw [h2, hAlm_self]
          rw [List.length_set]
          exact inv.lmLen c hc
        · rw [hAlm_ne c1 h2]
          exact inv.lmLen c1 h1
      · intro c1 r1
        rw [hgetB c1]
        by_cases h1 : c1 = c ∧ r1 = r
        · rw [h1.1, h1.2, hll_self]
          exact list_nodup_append_singleton (inv.lmNodup c r) hnm
        · rw [hll_other c1 r1 h1]
          exact inv.lmNodup c1 r1
      · intro c1 r1 x hx
        rw [hgetB c1] at hx
        by_cases h1 : c1 = c ∧ r1 = r
        · rw [h1.1, h1.2, hll_self] at hx
          rcases List.mem_append.mp hx with h2 | h2
          · exact inv.lmLt c r x h2
          · simp only [List.mem_singleton] at h2
            rw [h2]
            exact ht
        · rw [hll_other c1 r1 h1] at hx
          exact inv.lmLt c1 r1 x hx
      · intro c1 r1 x hx
        rw [hgetB c1] at hx
        rcases hBpm c1 r1 x hx with h1 | h1
        · exact inv.pmLt c1 r1 x h1
        · rw [h1]
          exact hc
      · intro c1 h1
        rw [hgetB c1, hBss c1]
        exact inv.selfMem c1 h1
      · intro c1 h1
        rw [hgetB c1, hBss c1]
        exact inv.topMem c1 h1
      · intro it hit
        rw [hwl] at hit
        exact inv.wlLt it hit
      · intro li hli
        rw [hlwl] at hli
        rcases List.mem_cons.mp hli with h1 | h1
        · rw [h1]
          exact ⟨hc, hr, ht⟩
        · exact inv.lwlOk li h1
      · intro it hit
        rw [hhist] at hit
        rw [hgetB it.concept, hBss it.concept]
        exact inv.histMem it hit
      · intro it
        rw [hhist]
        exact inv.histCnt it
      · intro li hli
        rw [hlhist] at hli
        rw [hgetB li.source]
        rcases List.mem_cons.mp hli with h1 | h1
        · rw [h1]
          rw [hll_self]
          exact List.mem_append_right _ (List.mem_singleton_self t)
        · exact hll_mono li.source li.role li.target (inv.lhistMem li h1)
      · intro li
        rw [hlhist, List.count_cons]
        have hb := inv.lhistCnt li
        by_cases h1 : li = (⟨c, r, t⟩ : Cpp.LinkItem)
        · have hcnt0 : st.lhist.count li = 0 := by
            apply List.count_eq_zero.mpr
            intro hmem
            have h3 := inv.lhistMem li hmem
            rw [h1] at h3
            exact hnm h3
          rw [hcnt0, if_pos (by simp [h1])]
        · rw [if_neg (by simp only [beq_iff_eq]; exact fun h3 => h1 h3.symm)]
          simpa using hb
    refine ⟨hinv, ?_⟩
    have hfacts : Cpp.facts (Cpp.addLinkPush c r t st) = Cpp.facts st + 1 := by
      have hBfacts : Cpp.facts (Cpp.addLinkPush c r t st) = Cpp.facts B := by
        unfold Cpp.facts
        rw [hA]
      have h1 : Cpp.facts B + Cpp.ctxFacts (Cpp.getCtx A t)
          = Cpp.facts A + Cpp.ctxFacts (Cpp.getCtx A t) := by
        rw [hBdef]
        have h2 := cpp_facts_updCtx (fun ctx =>
          { ctx with predMap := ctx.predMap.set r (ctx.predMap.getD r [] ++ [c]) }) htlenA
        exact h2
      have h3 : Cpp.facts A + Cpp.ctxFacts (Cpp.getCtx st c)
          = Cpp.facts st + (Cpp.ctxFacts (Cpp.getCtx st c) + 1) := by
        rw [hAdef]
        have h4 := cpp_facts_updCtx (fun ctx =>
          { ctx with linkMap := ctx.linkMap.set r (ctx.linkMap.getD r [] ++ [t]) }) hclen
        have h5 : Cpp.ctxFacts ((fun ctx =>
            { ctx with linkMap := ctx.linkMap.set r (ctx.linkMap.getD r [] ++ [t]) })
              (Cpp.getCtx st c)) = Cpp.ctxFacts (Cpp.getCtx st c) + 1 := by
          unfold Cpp.ctxFacts
          have h6 := list_sum_map_set List.length (Cpp.getCtx st c).linkMap r
            ((Cpp.getCtx st c).linkMap.getD r [] ++ [t]) [] hrlen
          simp only [List.length_append, List.length_singleton] at h6
          simp only []
          omega
        rw [h4, h5]
      rw [hBfacts]
      omega
    have hle := cpp_facts_le_max hinv
    rw [hfacts] at hle
    have hb1 := cpp_phaseBit_le_one (Cpp.addLinkPush c r t st)
    unfold Cpp.phi
    rw [hfacts, hwl, hlwl]
    simp only [List.length_cons]
    omega

theorem cpp_cr1_inv {store : Cpp.Store} {n R : Nat} (hv : Cpp.Valid store n R)
    {st : Cpp.SatState} (inv : Cpp.Inv n R st) {c d : Nat} (hc : c < n) :
    Cpp.Inv n R (Cpp.cr1 store c d st) ∧
    Cpp.phi n R (Cpp.cr1 store c d st) ≤ Cpp.phi n R st := by
  unfold Cpp.cr1
  refine list_foldl_induction _
    (fun s => Cpp.Inv n R s ∧ Cpp.phi n R s ≤ Cpp.phi n R st) _ st ⟨inv, le_refl _⟩ ?_
  intro s e he hP
  have he2 : e < n := by
    rcases list_mem_getD_exists he with ⟨m, hm, hem⟩
    exact hv.1 m hm e hem
  obtain ⟨h1, h2⟩ := cpp_addSuperPush_inv hP.1 hc he2
  exact ⟨h1, le_trans h2 hP.2⟩

theorem cpp_cr2_inv {store : Cpp.Store} {n R : Nat} (hv : Cpp.Valid store n R)
    {st : Cpp.SatState} (inv : Cpp.Inv n R st) {c d : Nat} (hc : c < n) :
    Cpp.Inv n R (Cpp.cr2 store c d st) ∧
    Cpp.phi n R (Cpp.cr2 store c d st) ≤ Cpp.phi n R st := by
  unfold Cpp.cr2
  refine list_foldl_induction _
    (fun s => Cpp.Inv n R s ∧ Cpp.phi n R s ≤ Cpp.phi n R st) _ st ⟨inv, le_refl _⟩ ?_
  intro s p hp hP
  by_cases hs : Cpp.hasSuper s c p.fst
  · rw [if_pos hs]
    refine list_foldl_induction _
      (fun s1 => Cpp.Inv n R s1 ∧ Cpp.phi n R s1 ≤ Cpp.phi n R st) _ s hP ?_
    intro s1 e he hP1
    have he2 : e < n := by
      rcases list_mem_getD_exists hp with ⟨m, hm, hpm⟩
      exact hv.2.1 m hm p hpm e he
    obtain ⟨h1, h2⟩ := cpp_addSuperPush_inv hP1.1 hc he2
    exact ⟨h1, le_trans h2 hP1.2⟩
  · rw [if_neg hs]
    exact hP

theorem cpp_cr3_inv {store : Cpp.Store} {n R : Nat} (hv : Cpp.Valid store n R)
    {st : Cpp.SatState} (inv : Cpp.Inv n R st) {c d : Nat} (hc : c < n) :
    Cpp.Inv n R (Cpp.cr3 store c d st) ∧
    Cpp.phi n R (Cpp.cr3 store c d st) ≤ Cpp.phi n R st := by
  unfold Cpp.cr3
  refine list_foldl_induction _
    (fun s => Cpp.Inv n R s ∧ Cpp.phi n R s ≤ Cpp.phi n R st) _ st ⟨inv, le_refl _⟩ ?_
  intro s rf hrf hP
  have hrf2 : rf.role < R ∧ rf.fill < n := by
    rcases list_mem_getD_exists hrf with ⟨m, hm, hmm⟩
    exact hv.2.2.1 m hm rf hmm
  obtain ⟨h1, h2⟩ := cpp_addLinkPush_inv hP.1 hc hrf2.1 hrf2.2
  exact ⟨h1, le_trans h2 hP.2⟩

theorem cpp_cr4b_inv {store : Cpp.Store} {n R : Nat} (hv : Cpp.Valid store n R)
    {st : Cpp.SatState} (inv : Cpp.Inv n R st) {c d : Nat} :
    Cpp.Inv n R (Cpp.cr4b store R c d st) ∧
    Cpp.phi n R (Cpp.cr4b store R c d st) ≤ Cpp.phi n R st := by
  unfold Cpp.cr4b
  refine list_foldl_induction _
    (fun s => Cpp.Inv n R s ∧ Cpp.phi n R s ≤ Cpp.phi n R st) _ st ⟨inv, le_refl _⟩ ?_
  intro s r hr hP
  have hpred : ∀ pred ∈ (Cpp.getCtx s c).predMap.getD r [], pred < n := hP.1.pmLt c r
  refine list_foldl_induction _
    (fun s1 => Cpp.Inv n R s1 ∧ Cpp.phi n R s1 ≤ Cpp.phi n R st) _ s hP ?_
  intro s1 pred hpredmem hP1
  cases hlk : (store.existLeft.getD r []).lookup d with
  | none => exact hP1
  | some fs =>
    refine list_foldl_induction _
      (fun s2 => Cpp.Inv n R s2 ∧ Cpp.phi n R s2 ≤ Cpp.phi n R st) _ s1 hP1 ?_
    intro s2 f hf hP2
    have hf2 : f < n := by
      have hmem := list_lookup_mem hlk
      rcases list_mem_getD_exists hmem with ⟨m, hm, hdm⟩
      exact hv.2.2.2 m hm (d, fs) hdm f hf
    obtain ⟨h1, h2⟩ := cpp_addSuperPush_inv hP2.1 (hpred pred hpredmem) hf2
    exact ⟨h1, le_trans h2 hP2.2⟩

theorem cpp_procSuper_inv {store : Cpp.Store} {n R : Nat} (hv : Cpp.Valid store n R)
    {st : Cpp.SatState} (inv : Cpp.Inv n R st) {it : Cpp.WorkItem} (hc : it.concept < n) :
    Cpp.Inv n R (Cpp.procSuper store R it st) ∧
    Cpp.phi n R (Cpp.procSuper store R it st) ≤ Cpp.phi n R st := by
  unfold Cpp.procSuper
  have h1 : Cpp.Inv n R (Cpp.cr1 store it.concept it.added st) ∧
      Cpp.phi n R (Cpp.cr1 store it.concept it.added st) ≤ Cpp.phi n R st :=
    cpp_cr1_inv hv inv hc
  have h2 : Cpp.Inv n R (Cpp.cr2 store it.concept it.added
        (Cpp.cr1 store it.concept it.added st)) ∧
      Cpp.phi n R (Cpp.cr2 store it.concept it.added
        (Cpp.cr1 store it.concept it.added st))
        ≤ Cpp.phi n R (Cpp.cr1 store it.concept it.added st) :=
    cpp_cr2_inv hv h1.1 hc
  have h3 : Cpp.Inv n R (Cpp.cr3 store it.concept it.added
        (Cpp.cr2 store it.concept it.added (Cpp.cr1 store it.concept it.added st))) ∧
      Cpp.phi n R (Cpp.cr3 store it.concept it.added
        (Cpp.cr2 store it.concept it.added (Cpp.cr1 store it.concept it.added st)))
        ≤ Cpp.phi n R (Cpp.cr2 store it.concept it.added
            (Cpp.cr1 store it.concept it.added st)) :=
    cpp_cr3_inv hv h2.1 hc
  have h4 : Cpp.Inv n R (Cpp.cr4b store R it.concept it.added
        (Cpp.cr3 store it.concept it.added
          (Cpp.cr2 store it.concept it.added (Cpp.cr1 store it.concept it.added st)))) ∧
      Cpp.phi n R (Cpp.cr4b store R it.concept it.added
        (Cpp.cr3 store it.concept it.added
          (Cpp.cr2 store it.concept it.added (Cpp.cr1 store it.concept it.added st))))
        ≤ Cpp.phi n R (Cpp.cr3 store it.concept it.added
            (Cpp.cr2 store it.concept it.added (Cpp.cr1 store it.concept it.added st))) :=
    cpp_cr4b_inv hv h3.1
  exact ⟨h4.1, le_trans h4.2 (le_trans h3.2 (le_trans h2.2 h1.2))⟩

theorem cpp_cr4f_inv {store : Cpp.Store} {n R : Nat} (hv : Cpp.Valid store n R)
    {st : Cpp.SatState} (inv : Cpp.Inv n R st) {c r d : Nat} (hc : c < n) :
    Cpp.Inv n R (Cpp.cr4f store c r d st) ∧
    Cpp.phi n R (Cpp.cr4f store c r d st) ≤ Cpp.phi n R st := by
  unfold Cpp.cr4f
  by_cases hempty : (store.existLeft.getD r []).isEmpty
  · rw [if_pos hempty]
    exact ⟨inv, le_refl _⟩
  · rw [if_neg hempty]
    refine list_foldl_induction _
      (fun s => Cpp.Inv n R s ∧ Cpp.phi n R s ≤ Cpp.phi n R st) _ st ⟨inv, le_refl _⟩ ?_
    intro s e he hP
    cases hlk : (store.existLeft.getD r []).lookup e with
    | none => exact hP
    | some fs =>
      refine list_foldl_induction _
        (fun s1 => Cpp.Inv n R s1 ∧ Cpp.phi n R s1 ≤ Cpp.phi n R st) _ s hP ?_
      intro s1 f hf hP1
      have hf2 : f < n := by
        have hmem := list_lookup_mem hlk
        rcases list_mem_getD_exists hmem with ⟨m, hm, hdm⟩
        exact hv.2.2.2 m hm (e, fs) hdm f hf
      obtain ⟨h1, h2⟩ := cpp_addSuperPush_inv hP1.1 hc hf2
      exact ⟨h1, le_trans h2 hP1.2⟩

theorem cpp_cr5_inv {n R : Nat} {st : Cpp.SatState} (inv : Cpp.Inv n R st)
    (hn : 2 ≤ n) {c d : Nat} (hc : c < n) :
    Cpp.Inv n R (Cpp.cr5 c d st) ∧ Cpp.phi n R (Cpp.cr5 c d st) ≤ Cpp.phi n R st := by
  unfold Cpp.cr5
  by_cases hb : Cpp.hasSuper st d BOTTOM
  · rw [if_pos hb]
    exact cpp_addSuperPush_inv inv hc (by unfold BOTTOM; omega)
  · rw [if_neg hb]
    exact ⟨inv, le_refl _⟩

theorem cpp_procLink_inv {store : Cpp.Store} {n R : Nat} (hv : Cpp.Valid store n R)
    {st : Cpp.SatState} (inv : Cpp.Inv n R st) (hn : 2 ≤ n)
    {li : Cpp.LinkItem} (hc : li.source < n) :
    Cpp.Inv n R (Cpp.procLink store li st) ∧
    Cpp.phi n R (Cpp.procLink store li st) ≤ Cpp.phi n R st := by
  unfold Cpp.procLink
  have h1 : Cpp.Inv n R (Cpp.cr4f store li.source li.role li.target st) ∧
      Cpp.phi n R (Cpp.cr4f store li.source li.role li.target st) ≤ Cpp.phi n R st :=
    cpp_cr4f_inv hv inv hc
  have h2 : Cpp.Inv n R (Cpp.cr5 li.source li.target
        (Cpp.cr4f store li.source li.role li.target st)) ∧
      Cpp.phi n R (Cpp.cr5 li.source li.target
        (Cpp.cr4f store li.source li.role li.target st))
        ≤ Cpp.phi n R (Cpp.cr4f store li.source li.role li.target st) :=
    cpp_cr5_inv h1.1 hn hc
  exact ⟨h2.1, le_trans h2.2 h1.2⟩

theorem cpp_step_inv {store : Cpp.Store} {n R : Nat} (hv : Cpp.Valid store n R)
    (hn : 2 ≤ n) {st : Cpp.SatState} (inv : Cpp.Inv n R st)
    (hne : Cpp.finished st = false) :
    Cpp.Inv n R (Cpp.step store R st) ∧
    Cpp.phi n R (Cpp.step store R st) < Cpp.phi n R st := by
  have hfin : ¬(st.worklist = [] ∧ st.linkWorklist = []) := by
    intro h
    rw [Cpp.finished, h.1, h.2] at hne
    simp at hne
  cases hph : st.phase with
  | true =>
    cases hwl : st.worklist with
    | cons it rest =>
      have hstep : Cpp.step store R st
          = Cpp.procSuper store R it { st with worklist := rest } := by
        unfold Cpp.step
        rw [hph, hwl]
        rfl
      have hinv1 : Cpp.Inv n R ({ st with worklist := rest }) :=
        { ctxLen := inv.ctxLen, ssNodup := inv.ssNodup, ssLt := inv.ssLt,
          lmLen := inv.lmLen, lmNodup := inv.lmNodup, lmLt := inv.lmLt,
          pmLt := inv.pmLt, selfMem := inv.selfMem, topMem := inv.topMem,
          wlLt := fun it1 h1 => inv.wlLt it1 (by rw [hwl]; exact List.mem_cons_of_mem _ h1),
          lwlOk := inv.lwlOk, histMem := inv.histMem, histCnt := inv.histCnt,
          lhistMem := inv.lhistMem, lhistCnt := inv.lhistCnt }
      have hbst : Cpp.phaseBit st = 0 := by
        unfold Cpp.phaseBit
        rw [hph, hwl]
        simp
      have hb1 : Cpp.phaseBit ({ st with worklist := rest }) ≤ 1 := cpp_phaseBit_le_one _
      have hphi1 : Cpp.phi n R ({ st with worklist := rest }) + 1 ≤ Cpp.phi n R st := by
        have h1 : Cpp.phi n R ({ st with worklist := rest })
            = 3 * (Cpp.maxFacts n R - Cpp.facts st)
              + 2 * (rest.length + st.linkWorklist.length)
              + Cpp.phaseBit ({ st with worklist := rest }) := rfl
        have h2 : Cpp.phi n R st
            = 3 * (Cpp.maxFacts n R - Cpp.facts st)
              + 2 * ((it :: rest).length + st.linkWorklist.length) + Cpp.phaseBit st := by
          unfold Cpp.phi
          rw [hwl]
        rw [h1, h2, hbst]
        simp only [List.length_cons]
        omega
      have hcn : it.concept < n := inv.wlLt it (by rw [hwl]; exact List.mem_cons_self _ _)
      obtain ⟨hi, hp⟩ := cpp_procSuper_inv hv hinv1 hcn
      rw [hstep]
      exact ⟨hi, lt_of_le_of_lt hp (Nat.lt_of_succ_le hphi1)⟩
    | nil =>
      have hlwlne : st.linkWorklist ≠ [] := fun h => hfin ⟨hwl, h⟩
      have hstep : Cpp.step store R st = { st with phase := false } := by
        unfold Cpp.step
        rw [hph, hwl]
        rfl
      have hinv1 : Cpp.Inv n R ({ st with phase := false }) :=
        { ctxLen := inv.ctxLen, ssNodup := inv.ssNodup, ssLt := inv.ssLt,
          lmLen := inv.lmLen, lmNodup := inv.lmNodup, lmLt := inv.lmLt,
          pmLt := inv.pmLt, selfMem := inv.selfMem, topMem := inv.topMem,
          wlLt := inv.wlLt, lwlOk := inv.lwlOk, histMem := inv.histMem,
          histCnt := inv.histCnt, lhistMem := inv.lhistMem, lhistCnt := inv.lhistCnt }
      have hbst : Cpp.phaseBit st = 1 := by
        unfold Cpp.phaseBit
        rw [hph, hwl]
        simp
      have hbst1 : Cpp.phaseBit ({ st with phase := false }) = 0 := by
        unfold Cpp.phaseBit
        simp [hlwlne]
      rw [hstep]
      refine ⟨hinv1, ?_⟩
      have h1 : Cpp.phi n R ({ st with phase := false })
          = 3 * (Cpp.maxFacts n R - Cpp.facts st)
            + 2 * (st.worklist.length + st.linkWorklist.length)
            + Cpp.phaseBit ({ st with phase := false }) := rfl
      have h2 : Cpp.phi n R st
          = 3 * (Cpp.maxFacts n R - Cpp.facts st)
            + 2 * (st.worklist.length + st.linkWorklist.length) + Cpp.phaseBit st := rfl
      rw [h1, h2, hbst, hbst1]
      omega
  | false =>
    cases hlwl : st.linkWorklist with
    | cons li rest =>
      have hstep : Cpp.step store R st
          = Cpp.procLink store li { st with linkWorklist := rest } := by
        unfold Cpp.step
        rw [hph, hlwl]
        rfl
      have hinv1 : Cpp.Inv n R ({ st with linkWorklist := rest }) :=
        { ctxLen := inv.ctxLen, ssNodup := inv.ssNodup, ssLt := inv.ssLt,
          lmLen := inv.lmLen, lmNodup := inv.lmNodup, lmLt := inv.lmLt,
          pmLt := inv.pmLt, selfMem := inv.selfMem, topMem := inv.topMem,
          wlLt := inv.wlLt,
          lwlOk := fun li1 h1 => inv.lwlOk li1 (by rw [hlwl]; exact List.mem_cons_of_mem _ h1),
          histMem := inv.histMem, histCnt := inv.histCnt,
          lhistMem := inv.lhistMem, lhistCnt := inv.lhistCnt }
      have hbst : Cpp.phaseBit st = 0 := by
        unfold Cpp.phaseBit
        rw [hph, hlwl]
        simp
      have hb1 : Cpp.phaseBit ({ st with linkWorklist := rest }) ≤ 1 := cpp_phaseBit_le_one _
      have hphi1 : Cpp.phi n R ({ st with linkWorklist := rest }) + 1 ≤ Cpp.phi n R st := by
        have h1 : Cpp.phi n R ({ st with linkWorklist := rest })
            = 3 * (Cpp.maxFacts n R - Cpp.facts st)
              + 2 * (st.worklist.length + rest.length)
              + Cpp.phaseBit ({ st with linkWorklist := rest }) := rfl
        have h2 : Cpp.phi n R st
            = 3 * (Cpp.maxFacts n R - Cpp.facts st)
              + 2 * (st.worklist.length + (li :: rest).length) + Cpp.phaseBit st := by
          unfold Cpp.phi
          rw [hlwl]
        rw [h1, h2, hbst]
        simp only [List.length_cons]
        omega
      have hcn : li.source < n :=
        (inv.lwlOk li (by rw [hlwl]; exact List.mem_cons_self _ _)).1
      obtain ⟨hi, hp⟩ := cpp_procLink_inv hv hinv1 hn hcn
      rw [hstep]
      exact ⟨hi, lt_of_le_of_lt hp (Nat.lt_of_succ_le hphi1)⟩
    | nil =>
      have hwlne : st.worklist ≠ [] := fun h => hfin ⟨h, hlwl⟩
      have hstep : Cpp.step store R st = { st with phase := true } := by
        unfold Cpp.step
        rw [hph, hlwl]
        rfl
      have hinv1 : Cpp.Inv n R ({ st with phase := true }) :=
        { ctxLen := inv.ctxLen, ssNodup := inv.ssNodup, ssLt := inv.ssLt,
          lmLen := inv.lmLen, lmNodup := inv.lmNodup, lmLt := inv.lmLt,
          pmLt := inv.pmLt, selfMem := inv.selfMem, topMem := inv.topMem,
          wlLt := inv.wlLt, lwlOk := inv.lwlOk, histMem := inv.histMem,
          histCnt := inv.histCnt, lhistMem := inv.lhistMem, lhistCnt := inv.lhistCnt }
      have hbst : Cpp.phaseBit st = 1 := by
        unfold Cpp.phaseBit
        rw [hph, hlwl]
        simp
      have hbst1 : Cpp.phaseBit ({ st with phase := true }) = 0 := by
        unfold Cpp.phaseBit
        simp [hwlne]
      rw [hstep]
      refine ⟨hinv1, ?_⟩
      have h1 : Cpp.phi n R ({ st with phase := true })
          = 3 * (Cpp.maxFacts n R - Cpp.facts st)
            + 2 * (st.worklist.length + st.linkWorklist.length)
            + Cpp.phaseBit ({ st with phase := true }) := rfl
      have h2 : Cpp.phi n R st
          = 3 * (Cpp.maxFacts n R - Cpp.facts st)
            + 2 * (st.worklist.length + st.linkWorklist.length) + Cpp.phaseBit st := rfl
      rw [h1, h2, hbst, hbst1]
      omega

theorem cpp_run_inv {store : Cpp.Store} {n R : Nat} (hv : Cpp.Valid store n R) (hn : 2 ≤ n) :
    ∀ (fuel : Nat) {st : Cpp.SatState}, Cpp.Inv n R st →
      Cpp.Inv n R (Cpp.run store R fuel st) := by
  intro fuel
  induction fuel with
  | zero => intro st h; exact h
  | succ k ih =>
    intro st h
    rw [Cpp.run]
    by_cases hf : Cpp.finished st
    · rw [if_pos hf]
      exact h
    · rw [if_neg hf]
      exact ih (cpp_step_inv hv hn h (by simpa using hf)).1

theorem cpp_run_finished {store : Cpp.Store} {n R : Nat} (hv : Cpp.Valid store n R) (hn : 2 ≤ n) :
    ∀ (fuel : Nat) {st : Cpp.SatState}, Cpp.Inv n R st → Cpp.phi n R st ≤ fuel →
      Cpp.finished (Cpp.run store R fuel st) = true := by
  intro fuel
  induction fuel with
  | zero =>
    intro st hinv hphi
    have h0 : Cpp.phi n R st = 0 := Nat.le_zero.mp hphi
    unfold Cpp.phi at h0
    have hw : st.worklist.length = 0 ∧ st.linkWorklist.length = 0 := by omega
    have hw1 : st.worklist = [] := List.length_eq_zero.mp hw.1
    have hw2 : st.linkWorklist = [] := List.length_eq_zero.mp hw.2
    show Cpp.finished st = true
    rw [Cpp.finished, hw1, hw2]
    rfl
  | succ k ih =>
    intro st hinv hphi
    rw [Cpp.run]
    by_cases hf : Cpp.finished st
    · rw [if_pos hf]
      exact hf
    · rw [if_neg hf]
      obtain ⟨hi, hdec⟩ := cpp_step_inv hv hn hinv (by simpa using hf)
      exact ih hi (by omega)

theorem list_getD_replicate {α : Type} (R r : Nat) (x d : α) :
    (List.replicate R x).getD r d = if r < R then x else d := by
  by_cases h : r < R
  · rw [if_pos h]
    rw [List.getD_eq_getElem _ _ (by simpa using h)]
    simp
  · rw [if_neg h]
    rw [List.getD_eq_default _ _ (by simpa using le_of_not_lt h)]

theorem cpp_getCtx_init (n R c : Nat) :
    Cpp.getCtx (Cpp.initState n R) c = if c < n then Cpp.initCtx R c else default := by
  unfold Cpp.getCtx Cpp.initState
  by_cases h : c < n
  · rw [if_pos h]
    rw [List.getD_eq_getElem _ _ (by simpa using h)]
    simp
  · rw [if_neg h]
    rw [List.getD_eq_default _ _ (by simpa using le_of_not_lt h)]

theorem cpp_initItems_mem {n : Nat} : ∀ it ∈ Cpp.initItems n,
    it.concept < n ∧ (it.added = it.concept ∨ it.added = TOP) := by
  induction n with
  | zero =>
    intro it hit
    rw [show Cpp.initItems 0 = [] from rfl] at hit
    cases hit
  | succ k ih =>
    intro it hit
    rw [cpp_initItems_succ] at hit
    rcases List.mem_cons.mp hit with h1 | h1
    · rw [h1]
      exact ⟨Nat.lt_succ_self k, Or.inr rfl⟩
    · rcases List.mem_cons.mp h1 with h2 | h2
      · rw [h2]
        exact ⟨Nat.lt_succ_self k, Or.inl rfl⟩
      · obtain ⟨ha, hb⟩ := ih it h2
        exact ⟨Nat.lt_succ_of_lt ha, hb⟩

theorem cpp_initItems_count (n : Nat) (it : Cpp.WorkItem) :
    (Cpp.initItems n).count it ≤ if it.concept = 0 ∧ it.added = 0 then 2 else 1 := by
  obtain ⟨a, b⟩ := it
  induction n with
  | zero =>
    rw [show Cpp.initItems 0 = [] from rfl, List.count_nil]
    split <;> omega
  | succ k ih =>
    rw [cpp_initItems_succ, List.count_cons, List.count_cons]
    simp only [TOP]
    by_cases hak : a = k
    · have hc0 : (Cpp.initItems k).count ⟨a, b⟩ = 0 := by
        apply List.count_eq_zero.mpr
        intro hmem
        have h4 := (cpp_initItems_mem _ hmem).1
        simp only [] at h4
        omega
      rw [hc0]
      by_cases hbk : b = k
      · rw [if_pos (by simp only [beq_iff_eq, Cpp.WorkItem.mk.injEq]; omega)]
        by_cases hb0 : b = 0
        · rw [if_pos (by simp only [beq_iff_eq, Cpp.WorkItem.mk.injEq]; omega)]
          rw [if_pos (by constructor <;> omega)]
        · rw [if_neg (by simp only [beq_iff_eq, Cpp.WorkItem.mk.injEq, not_and]; omega)]
          split <;> omega
      · rw [if_neg (by simp only [beq_iff_eq, Cpp.WorkItem.mk.injEq, not_and]; omega)]
        by_cases hb0 : b = 0
        · rw [if_pos (by simp only [beq_iff_eq, Cpp.WorkItem.mk.injEq]; omega)]
          split <;> omega
        · rw [if_neg (by simp only [beq_iff_eq, Cpp.WorkItem.mk.injEq, not_and]; omega)]
          split <;> omega
    · rw [if_neg (by simp only [beq_iff_eq, Cpp.WorkItem.mk.injEq, not_and]; omega),
          if_neg (by simp only [beq_iff_eq, Cpp.WorkItem.mk.injEq, not_and]; omega)]
      simpa using ih

theorem list_getD_replicate_nil {α : Type} (R r : Nat) :
    (List.replicate R ([] : List α)).getD r [] = [] := by
  rw [list_getD_replicate]
  split <;> rfl

theorem cpp_init_inv (n R : Nat) (hn : 2 ≤ n) : Cpp.Inv n R (Cpp.initState n R) := by
  have hget := cpp_getCtx_init n R
  refine { ctxLen := ?_, ssNodup := ?_, ssLt := ?_, lmLen := ?_, lmNodup := ?_,
           lmLt := ?_, pmLt := ?_, selfMem := ?_, topMem := ?_, wlLt := ?_,
           lwlOk := ?_, histMem := ?_, histCnt := ?_, lhistMem := ?_, lhistCnt := ?_ }
  · show ((List.range n).map (Cpp.initCtx R)).length = n
    simp
  · intro c
    rw [hget c]
    by_cases hc : c < n
    · rw [if_pos hc]
      by_cases hc0 : c = TOP
      · simp [Cpp.initCtx, hc0]
      · have hc0n : ¬(c = 0) := by simpa [TOP] using hc0
        simp [Cpp.initCtx, TOP, hc0n]
    · rw [if_neg hc]
      exact List.nodup_nil
  · intro c x hx
    rw [hget c] at hx
    by_cases hc : c < n
    · rw [if_pos hc] at hx
      by_cases hc0 : c = TOP
      · simp [Cpp.initCtx, hc0, TOP] at hx
        omega
      · have hc0n : ¬(c = 0) := by simpa [TOP] using hc0
        simp [Cpp.initCtx, TOP, hc0n] at hx
        rcases hx with h | h <;> omega
    · rw [if_neg hc] at hx
      cases hx
  · intro c hc
    rw [hget c, if_pos hc]
    simp [Cpp.initCtx]
  · intro c r
    rw [hget c]
    by_cases hc : c < n
    · rw [if_pos hc]
      show ((Cpp.initCtx R c).linkMap.getD r []).Nodup
      simp only [Cpp.initCtx]
      rw [list_getD_replicate_nil]
      exact List.nodup_nil
    · rw [if_neg hc]
      exact List.nodup_nil
  · intro c r x hx
    rw [hget c] at hx
    by_cases hc : c < n
    · rw [if_pos hc] at hx
      simp only [Cpp.initCtx] at hx
      rw [list_getD_replicate_nil] at hx
      cases hx
    · rw [if_neg hc] at hx
      cases hx
  · intro c r x hx
    rw [hget c] at hx
    by_cases hc : c < n
    · rw [if_pos hc] at hx
      simp only [Cpp.initCtx] at hx
      rw [list_getD_replicate_nil] at hx
      cases hx
    · rw [if_neg hc] at hx
      cases hx
  · intro c hc
    rw [hget c, if_pos hc]
    by_cases hc0 : c = TOP
    · simp [Cpp.initCtx, hc0]
    · simp [Cpp.initCtx, hc0]
  · intro c hc
    rw [hget c, if_pos hc]
    by_cases hc0 : c = TOP
    · simp [Cpp.initCtx, hc0]
    · simp [Cpp.initCtx, hc0]
  · intro it hit
    exact (cpp_initItems_mem it hit).1
  · intro li hli
    cases hli
  · intro it hit
    have h := cpp_initItems_mem it hit
    rw [hget it.concept, if_pos h.1]
    rcases h.2 with h2 | h2
    · rw [h2]
      by_cases hc0 : it.concept = TOP
      · simp [Cpp.initCtx, hc0]
      · simp [Cpp.initCtx, hc0]
    · rw [h2]
      by_cases hc0 : it.concept = TOP
      · simp [Cpp.initCtx, hc0]
      · simp [Cpp.initCtx, hc0]
  · intro it
    exact cpp_initItems_count n it
  · intro li hli
    cases hli
  · intro li
    show ([] : List Cpp.LinkItem).count li ≤ 1
    simp

/-- C6 amended: in the C++ implementation, over the whole run every
distinct super-trigger is enqueued at most once, except that
initialization enqueues the item (TOP, TOP) twice (the pushes (c, c) and
(c, TOP) coincide for c = TOP); every distinct link-trigger is enqueued
at most once; and the main loop terminates for every well-formed input
store (some fuel reaches quiescence).  The journals hist and lhist
record every enqueue of the run. -/
theorem c6_enqueue_once_and_terminates (store : Cpp.Store) (n R : Nat)
    (hv : Cpp.Valid store n R) (hn : 2 ≤ n) :
    (∀ fuel : Nat, ∀ it : Cpp.WorkItem,
        (Cpp.run store R fuel (Cpp.initState n R)).hist.count it
          ≤ if it.concept = TOP ∧ it.added = TOP then 2 else 1) ∧
    (∀ fuel : Nat, ∀ li : Cpp.LinkItem,
        (Cpp.run store R fuel (Cpp.initState n R)).lhist.count li ≤ 1) ∧
    (∃ fuel : Nat, Cpp.finished (Cpp.run store R fuel (Cpp.initState n R)) = true) := by
  have hinit := cpp_init_inv n R hn
  refine ⟨?_, ?_, ?_⟩
  · intro fuel it
    exact (cpp_run_inv hv hn fuel hinit).histCnt it
  · intro fuel li
    exact (cpp_run_inv hv hn fuel hinit).lhistCnt li
  · exact ⟨Cpp.phi n R (Cpp.initState n R), cpp_run_finished hv hn _ hinit (le_refl _)⟩

theorem mem_drop_range_ge {n k c : Nat} (h : c ∈ (List.range n).drop k) : k ≤ c ∧ c < n := by
  rcases List.mem_iff_getElem.mp h with ⟨i, hi, hc⟩
  rw [List.getElem_drop] at hc
  rw [List.getElem_range] at hc
  have hlen : i < n - k := by simpa using hi
  omega

theorem list_filter_ne_pair_length {l : List Nat} (hnd : l.Nodup) {a b : Nat}
    (ha : a ∈ l) (hb : b ∈ l) (hab : a ≠ b) :
    (l.filter (fun x => x ≠ a ∧ x ≠ b)).length + 2 = l.length := by
  have h1 : l.filter (fun x => decide (x ≠ a ∧ x ≠ b))
      = (l.filter (fun x => x ≠ a)).filter (fun x => x ≠ b) := by
    rw [List.filter_filter]
    apply List.filter_congr
    intro x hx
    by_cases hxa : x = a <;> by_cases hxb : x = b <;> simp [hxa, hxb]
  have hfa : l.filter (fun x => decide (x ≠ a)) = l.filter (fun x => x != a) := by
    apply List.filter_congr
    intro x hx
    by_cases h : x = a <;> simp [h]
  have hfb : (l.filter (fun x => decide (x ≠ a))).filter (fun x => decide (x ≠ b))
      = (l.filter (fun x => decide (x ≠ a))).filter (fun x => x != b) := by
    apply List.filter_congr
    intro x hx
    by_cases h : x = b <;> simp [h]
  have hnd1 : (l.filter (fun x => x ≠ a)).Nodup := hnd.filter _
  have hb1 : b ∈ l.filter (fun x => x ≠ a) := by
    rw [List.mem_filter]
    refine ⟨hb, ?_⟩
    simp only [decide_eq_true_eq]
    exact fun h => hab h.symm
  have h2 : ((l.filter (fun x => x ≠ a)).filter (fun x => x ≠ b)).length + 1
      = (l.filter (fun x => x ≠ a)).length := by
    rw [hfb, ← List.Nodup.erase_eq_filter hnd1 b]
    exact List.length_erase_add_one hb1
  have h3 : (l.filter (fun x => x ≠ a)).length + 1 = l.length := by
    rw [hfa, ← List.Nodup.erase_eq_filter hnd a]
    exact List.length_erase_add_one ha
  rw [h1]
  omega

/-- C5: for contexts produced by the C++ saturation loop, countInferred
returns exactly the sum, over every concept c other than TOP and BOTTOM,
of the cardinality of S(c) minus the members c and TOP: the code's
super_set.size() - 2 (guarded by size > 2) agrees with the spec formula
because every saturated superset is duplicate-free and contains exactly
the two trivial members c and TOP. -/
theorem c5_countInferred_matches_spec (store : Cpp.Store) (n R fuel : Nat)
    (hv : Cpp.Valid store n R) (hn : 2 ≤ n) :
    Cpp.countInferred (Cpp.run store R fuel (Cpp.initState n R)).contexts
      = Cpp.specInferredSum n (Cpp.run store R fuel (Cpp.initState n R)) := by
  have hinv := cpp_run_inv hv hn fuel (cpp_init_inv n R hn)
  unfold Cpp.countInferred Cpp.specInferredSum
  rw [hinv.ctxLen]
  apply list_foldl_ext_mem
  intro t c hc
  obtain ⟨hc2, hcn⟩ := mem_drop_range_ge hc
  dsimp only
  have hnd := hinv.ssNodup c
  have hcm := hinv.selfMem c hcn
  have h0m := hinv.topMem c hcn
  have hc0 : c ≠ TOP := by
    unfold TOP
    omega
  have hflt := list_filter_ne_pair_length hnd hcm h0m hc0
  by_cases hsz : 2 < ((Cpp.run store R fuel (Cpp.initState n R)).contexts.getD c default).superSet.length
  · rw [if_pos hsz]
    have hgd : (Cpp.run store R fuel (Cpp.initState n R)).contexts.getD c default
        = Cpp.getCtx (Cpp.run store R fuel (Cpp.initState n R)) c := rfl
    rw [hgd] at hsz ⊢
    omega
  · rw [if_neg hsz]
    have hgd : (Cpp.run store R fuel (Cpp.initState n R)).contexts.getD c default
        = Cpp.getCtx (Cpp.run store R fuel (Cpp.initState n R)) c := rfl
    rw [hgd] at hsz
    omega

/-- C6 witness: the amended statement instantiated at the empty
two-concept store. -/
theorem c6_enqueue_once_and_terminates_witness :
    Cpp.Valid trivStore 2 1 ∧ 2 ≤ 2 ∧
    ((∀ fuel : Nat, ∀ it : Cpp.WorkItem,
        (Cpp.run trivStore 1 fuel (Cpp.initState 2 1)).hist.count it
          ≤ if it.concept = TOP ∧ it.added = TOP then 2 else 1) ∧
     (∀ fuel : Nat, ∀ li : Cpp.LinkItem,
        (Cpp.run trivStore 1 fuel (Cpp.initState 2 1)).lhist.count li ≤ 1) ∧
     (∃ fuel : Nat, Cpp.finished (Cpp.run trivStore 1 fuel (Cpp.initState 2 1)) = true)) :=
  ⟨by decide, by omega, c6_enqueue_once_and_terminates trivStore 2 1 (by decide) (by omega)⟩

/-- C5 witness: the countInferred equality instantiated at the empty
two-concept store. -/
theorem c5_countInferred_matches_spec_witness :
    Cpp.Valid trivStore 2 1 ∧ 2 ≤ 2 ∧
    Cpp.countInferred (Cpp.run trivStore 1 20 (Cpp.initState 2 1)).contexts
      = Cpp.specInferredSum 2 (Cpp.run trivStore 1 20 (Cpp.initState 2 1)) :=
  ⟨by decide, by omega, c5_countInferred_matches_spec trivStore 2 1 20 (by decide) (by omega)⟩

theorem assocAppend_lookup_self (k v : Nat) :
    ∀ m : List (Nat × List Nat), v ∈ ((Cpp.assocAppend m k v).lookup k).getD [] := by
  intro m
  induction m with
  | nil => simp [Cpp.assocAppend, List.lookup]
  | cons p t ih =>
    obtain ⟨k1, l⟩ := p
    by_cases hk : k1 = k
    · subst hk
      simp [Cpp.assocAppend, List.lookup]
    · have hbeq : (k == k1) = false := by
        simp [Ne.symm hk]
      simp only [Cpp.assocAppend, if_neg hk, List.lookup, hbeq]
      exact ih

/-- C3: the spec's ingest operations addConjunction(A1, A2, B) and
addExistLeft(r, B, A), modelled from the spec because they are absent
from both source files, install their conclusion so that the keyed
lookups performed by the CR2 and CR4 blocks of the C++ saturate find it:
B is among the results for (A1, A2) and for (A2, A1) in conjIndex, and A
is among the results of exist_left[r][B]. -/
theorem c3_ingest_lookups (store : Cpp.Store) (a1 a2 b r fb a : Nat)
    (h1 : a1 < store.conjIndex.length) (h2 : a2 < store.conjIndex.length)
    (hr : r < store.existLeft.length) :
    b ∈ Cpp.cr2Results (Cpp.addExistLeft (Cpp.addConjunction store a1 a2 b) r fb a) a1 a2 ∧
    b ∈ Cpp.cr2Results (Cpp.addExistLeft (Cpp.addConjunction store a1 a2 b) r fb a) a2 a1 ∧
    a ∈ Cpp.cr4Results (Cpp.addExistLeft (Cpp.addConjunction store a1 a2 b) r fb a) r fb := by
  have hconj : (Cpp.addExistLeft (Cpp.addConjunction store a1 a2 b) r fb a).conjIndex
      = (Cpp.addConjunction store a1 a2 b).conjIndex := rfl
  refine ⟨?_, ?_, ?_⟩
  · rw [Cpp.cr2Results, hconj]
    unfold Cpp.addConjunction
    by_cases he : a1 = a2
    · subst he
      rw [list_getD_set_self _ _ _ _ (by simpa using h1)]
      exact assocAppend_lookup_self _ _ _
    · rw [list_getD_set_ne _ _ _ (Ne.symm he), list_getD_set_self _ _ _ _ h1]
      exact assocAppend_lookup_self _ _ _
  · rw [Cpp.cr2Results, hconj]
    unfold Cpp.addConjunction
    by_cases he : a1 = a2
    · subst he
      rw [list_getD_set_self _ _ _ _ (by simpa using h1)]
      exact assocAppend_lookup_self _ _ _
    · rw [list_getD_set_self _ _ _ _ (by simpa using h2)]
      exact assocAppend_lookup_self _ _ _
  · rw [Cpp.cr4Results]
    unfold Cpp.addExistLeft Cpp.addConjunction
    rw [list_getD_set_self _ _ _ _ (by simpa using hr)]
    exact assocAppend_lookup_self _ _ _

/-- C3 witness: the ingest lookups at a concrete store. -/
theorem c3_ingest_lookups_witness :
    (0 < trivStore.conjIndex.length ∧ 1 < trivStore.conjIndex.length ∧
     0 < trivStore.existLeft.length) ∧
    (3 ∈ Cpp.cr2Results (Cpp.addExistLeft (Cpp.addConjunction trivStore 0 1 3) 0 1 3) 0 1 ∧
     3 ∈ Cpp.cr2Results (Cpp.addExistLeft (Cpp.addConjunction trivStore 0 1 3) 0 1 3) 1 0 ∧
     3 ∈ Cpp.cr4Results (Cpp.addExistLeft (Cpp.addConjunction trivStore 0 1 3) 0 1 3) 0 1) :=
  ⟨⟨by decide, by decide, by decide⟩,
   c3_ingest_lookups trivStore 0 1 3 0 1 3 (by decide) (by decide) (by decide)⟩
